import Mathlib

/-!
Verification development for the transactional history checker of the
`alice-sled` crash-and-concurrency test harness
(`cases/transactions/src/bin/transactions_checker.rs`).

The Rust code is embedded shallowly:

* byte strings (`Vec<u8>`) become `List Nat`;
* `u128` timestamps become `Nat`, with an explicit `% 2 ^ 128` at the one
  place the code multiplies (`max_timestamp * 11 / 10`);
* panics (`unwrap`, out-of-range indexing, `unreachable!`, fuel-free
  divergence of the rewrite fixpoint loop) become `Option`/failure results;
* the fixpoint loop of `Expression::to_cnf`, whose termination the source
  does not argue, takes an explicit fuel parameter; all statements about it
  quantify over the fuel;
* diagnostic comment strings carried by the GNF builder are dropped: they
  never influence the logical content (clauses, edges, counts).
-/

namespace Sled

/-! ## Propositional core: `Variable`, `Literal`, `Clause`, `Expression` -/

/-- `enum Literal { Variable(Variable), Negation(Variable) }`, with
`Variable(usize)` inlined to a `Nat` index. The derived Rust `Ord` compares
the constructor first (`Variable < Negation`) and the index second. -/
inductive Literal where
  | pos (v : Nat) : Literal
  | neg (v : Nat) : Literal
deriving DecidableEq, Repr

/-- The variable index carried by a literal. -/
def Literal.var : Literal → Nat
  | .pos v => v
  | .neg v => v

/-- Truth value of a literal under an assignment. -/
def Literal.eval (a : Nat → Bool) : Literal → Bool
  | .pos v => a v
  | .neg v => !a v

/-- The strict order on literals induced by the derived Rust `Ord`:
constructor tag first (`Variable` before `Negation`), variable index second. -/
def Literal.lt : Literal → Literal → Bool
  | .pos v, .pos w => v < w
  | .pos _, .neg _ => true
  | .neg _, .pos _ => false
  | .neg v, .neg w => v < w

/-- A clause: a disjunction of literals (`struct Clause { literals: Vec<Literal> }`). -/
abbrev Clause := List Literal

/-- Insert a literal into an ascending duplicate-free list, modelling one
`BTreeSet<Literal>` insertion. -/
def insertLit (x : Literal) : List Literal → List Literal
  | [] => [x]
  | y :: ys =>
    if Literal.lt x y then x :: y :: ys
    else if x = y then y :: ys
    else y :: insertLit x ys

/-- Sort and deduplicate a clause's literals, modelling the `BTreeSet`
`sorter` of `Expression::to_cnf`'s final pass. -/
def sortedDedup (l : List Literal) : List Literal :=
  l.foldl (fun acc x => insertLit x acc) []

/-- `enum Expression { Conjunction(Vec<Expression>), Disjunction(Vec<Expression>), Literal(Literal) }`. -/
inductive Expression where
  | conj (es : List Expression) : Expression
  | disj (es : List Expression) : Expression
  | lit (l : Literal) : Expression

/-- Classical satisfaction of an expression by an assignment. -/
inductive Sat (a : Nat → Bool) : Expression → Prop
  | lit {l : Literal} : l.eval a = true → Sat a (.lit l)
  | conj {es : List Expression} : (∀ e ∈ es, Sat a e) → Sat a (.conj es)
  | disj {es : List Expression} {e : Expression} : e ∈ es → Sat a e → Sat a (.disj es)

theorem sat_lit_iff {a : Nat → Bool} {l : Literal} : Sat a (.lit l) ↔ l.eval a = true := by
  constructor
  · intro h; cases h with
    | lit h => exact h
  · exact Sat.lit

theorem sat_conj_iff {a : Nat → Bool} {es : List Expression} :
    Sat a (.conj es) ↔ ∀ e ∈ es, Sat a e := by
  constructor
  · intro h; cases h with
    | conj h => exact h
  · exact Sat.conj

theorem sat_disj_iff {a : Nat → Bool} {es : List Expression} :
    Sat a (.disj es) ↔ ∃ e ∈ es, Sat a e := by
  constructor
  · intro h; cases h with
    | disj he hs => exact ⟨_, he, hs⟩
  · rintro ⟨e, he, hs⟩; exact Sat.disj he hs

/-- `enum VisitorStatus { Cnf, CnfClause, Literal, Other }` from
`Expression::to_cnf`'s `rewrite_visitor`. -/
inductive VisitorStatus where
  | cnf : VisitorStatus
  | cnfClause : VisitorStatus
  | literal : VisitorStatus
  | other : VisitorStatus
deriving DecidableEq, Repr

/-- Is the expression a conjunction? (`if let Expression::Conjunction(_)`). -/
def Expression.isConj : Expression → Bool
  | .conj _ => true
  | _ => false

/-- The flattening `while i < exprs.len()` loop of the `Conjunction` arm of
`rewrite_visitor`: a nested conjunction at the cursor has its last argument
moved into the cursor slot and its remaining arguments appended at the end
(where the cursor will reach them later). The cursor's processed prefix is
returned by prepending; `none` models `nested_exprs.pop().unwrap()` panicking
on an empty nested conjunction, or fuel running out. -/
def flattenConjAux : Nat → List Expression → Option (List Expression)
  | 0, _ => none
  | _, [] => some []
  | fuel + 1, e :: todo =>
    match e with
    | .conj nested =>
      match nested.getLast? with
      | none => none
      | some last =>
        (flattenConjAux fuel (todo ++ nested.dropLast)).map (last :: ·)
    | _ => (flattenConjAux fuel todo).map (e :: ·)

/-- The flattening loop of the `Disjunction` arm, identical in shape to
`flattenConjAux` but merging nested disjunctions. -/
def flattenDisjAux : Nat → List Expression → Option (List Expression)
  | 0, _ => none
  | _, [] => some []
  | fuel + 1, e :: todo =>
    match e with
    | .disj nested =>
      match nested.getLast? with
      | none => none
      | some last =>
        (flattenDisjAux fuel (todo ++ nested.dropLast)).map (last :: ·)
    | _ => (flattenDisjAux fuel todo).map (e :: ·)

/-- `Vec::swap_remove(i)`: return the element at `i` and the list with the
last element moved into slot `i`; `none` models the out-of-range panic. -/
def swapRemove (l : List Expression) (i : Nat) : Option (Expression × List Expression) :=
  match l[i]?, l.getLast? with
  | some x, some last => some (x, (l.set i last).dropLast)
  | _, _ => none

/-- The distribution step at the end of the `Disjunction` arm: if the
flattened argument list contains a conjunction (the source tracks the index
of the first one while flattening; it equals the first conjunction's index in
the flattened list) and has at least two arguments, `swap_remove` that
conjunction, `pop` one other argument, and push the distributed conjunction
`(other ∨ a₁) ∧ (other ∨ a₂) ∧ …`. -/
def distributeStep (out : List Expression) : Option (List Expression) :=
  match out.findIdx? Expression.isConj with
  | none => some out
  | some fc =>
    if 2 ≤ out.length then
      match swapRemove out fc with
      | some (.conj cargs, rest) =>
        match rest.getLast? with
        | none => none
        | some other =>
          some (rest.dropLast ++ [.conj (cargs.map (fun arg => .disj [other, arg]))])
      | _ => none
    else some out

/-- Visit every child with the given visitor (the `for expr in exprs.iter_mut()`
loops of `rewrite_visitor`), collecting rewritten children and their statuses. -/
def visitChildren (rv : Expression → Option (Expression × VisitorStatus)) :
    List Expression → Option (List (Expression × VisitorStatus))
  | [] => some []
  | e :: es => do
    let r ← rv e
    let rs ← visitChildren rv es
    pure (r :: rs)

/-- `is_cnf` of the `Conjunction` arm: did every child report `CnfClause` or
`Literal`? -/
def conjChildrenOk (rs : List (Expression × VisitorStatus)) : Bool :=
  rs.all fun r => r.2 = VisitorStatus.cnfClause ∨ r.2 = VisitorStatus.literal

/-- `is_cnf_clause` of the `Disjunction` arm: did every child report `Literal`? -/
def disjChildrenOk (rs : List (Expression × VisitorStatus)) : Bool :=
  rs.all fun r => r.2 = VisitorStatus.literal

/-- One bottom-up pass of `rewrite_visitor`. The fuel bounds the recursion
depth (the Rust recursion is structural on the tree; the rewritten tree is
consumed by the next fixpoint iteration). -/
def rewriteVisitor : Nat → Expression → Option (Expression × VisitorStatus)
  | 0, _ => none
  | fuel + 1, e =>
    match e with
    | .lit l => some (.lit l, .literal)
    | .conj es =>
      match visitChildren (rewriteVisitor fuel) es with
      | none => none
      | some rs =>
        match conjChildrenOk rs with
        | true => some (.conj (rs.map Prod.fst), .cnf)
        | false =>
          match rs.map Prod.fst with
          | [e1] => some (e1, .other)
          | es2 =>
            match flattenConjAux (fuel + 1) es2 with
            | none => none
            | some flat => some (.conj flat, .other)
    | .disj es =>
      match visitChildren (rewriteVisitor fuel) es with
      | none => none
      | some rs =>
        match disjChildrenOk rs with
        | true => some (.disj (rs.map Prod.fst), .cnfClause)
        | false =>
          match rs.map Prod.fst with
          | [e1] => some (e1, .other)
          | es2 =>
            match flattenDisjAux (fuel + 1) es2 with
            | none => none
            | some flat =>
              match distributeStep flat with
              | none => none
              | some out => some (.disj out, .other)

/-- The fixpoint loop of `Expression::to_cnf`: call `rewrite_visitor` until
the status is `Cnf`, `CnfClause` or `Literal`. The fuel bounds the number of
iterations (each iteration also uses it as visitor depth budget). -/
def toCnfLoop : Nat → Expression → Option Expression
  | 0, _ => none
  | fuel + 1, e =>
    match rewriteVisitor (fuel + 1) e with
    | none => none
    | some (e', s) =>
      match s with
      | .cnf => some e'
      | .cnfClause => some e'
      | .literal => some e'
      | .other => toCnfLoop fuel e'

/-- Extract the literal of a literal expression. -/
def litOf : Expression → Option Literal
  | .lit l => some l
  | _ => none

/-- Map a fallible function over a list, failing if any element fails
(the behaviour of a Rust iterator of fallible steps driven to completion,
where a failure is a panic). -/
def mapOption {α β : Type} (f : α → Option β) : List α → Option (List β)
  | [] => some []
  | x :: xs =>
    match f x, mapOption f xs with
    | some y, some ys => some (y :: ys)
    | _, _ => none

/-- The final destructuring of one clause expression: a disjunction's
arguments are deduplicated and sorted through the `BTreeSet`, a bare literal
becomes a unit clause, a conjunction is the `"Normalization failed!"` panic. -/
def clauseOf : Expression → Option Clause
  | .disj args =>
    match mapOption litOf args with
    | none => none
    | some lits => some (sortedDedup lits)
  | .lit l => some [l]
  | .conj _ => none

/-- The final destructuring of the normalised expression into clauses. -/
def finalize : Expression → Option (List Clause)
  | .conj es => mapOption clauseOf es
  | e =>
    match clauseOf e with
    | none => none
    | some c => some [c]

/-- `Expression::to_cnf`, with explicit fuel for the fixpoint loop. -/
def Expression.to_cnf (fuel : Nat) (e : Expression) : Option (List Clause) :=
  match toCnfLoop fuel e with
  | none => none
  | some e' => finalize e'

/-- An assignment satisfies a clause list iff every clause has a true literal. -/
def SatCnf (a : Nat → Bool) (cs : List Clause) : Prop :=
  ∀ c ∈ cs, ∃ l ∈ c, l.eval a = true

instance (a : Nat → Bool) (cs : List Clause) : Decidable (SatCnf a cs) := by
  unfold SatCnf; infer_instance

end Sled

namespace Sled

/-! ## Semantic preservation of the CNF rewriting (claim C1) -/

theorem dropLast_append_of_getLast? {α : Type} {l : List α} {x : α}
    (h : l.getLast? = some x) : l.dropLast ++ [x] = l :=
  List.dropLast_append_getLast? x h

theorem mem_iff_of_getLast? {α : Type} {l : List α} {x : α}
    (h : l.getLast? = some x) (y : α) : y ∈ l ↔ y ∈ l.dropLast ∨ y = x := by
  conv_lhs => rw [← dropLast_append_of_getLast? h]
  simp

theorem forall_mem_of_getLast? {α : Type} {l : List α} {x : α}
    (h : l.getLast? = some x) (P : α → Prop) :
    (∀ y ∈ l, P y) ↔ ((∀ y ∈ l.dropLast, P y) ∧ P x) := by
  constructor
  · intro hy
    exact ⟨fun y hm => hy y ((mem_iff_of_getLast? h y).mpr (Or.inl hm)),
      hy x ((mem_iff_of_getLast? h x).mpr (Or.inr rfl))⟩
  · rintro ⟨h1, h2⟩ y hy
    rcases (mem_iff_of_getLast? h y).mp hy with hm | rfl
    · exact h1 y hm
    · exact h2

theorem exists_mem_of_getLast? {α : Type} {l : List α} {x : α}
    (h : l.getLast? = some x) (P : α → Prop) :
    (∃ y ∈ l, P y) ↔ ((∃ y ∈ l.dropLast, P y) ∨ P x) := by
  constructor
  · rintro ⟨y, hy, hp⟩
    rcases (mem_iff_of_getLast? h y).mp hy with hm | rfl
    · exact Or.inl ⟨y, hm, hp⟩
    · exact Or.inr hp
  · rintro (⟨y, hm, hp⟩ | hp)
    · exact ⟨y, (mem_iff_of_getLast? h y).mpr (Or.inl hm), hp⟩
    · exact ⟨x, (mem_iff_of_getLast? h x).mpr (Or.inr rfl), hp⟩

theorem insertLit_mem (x y : Literal) (l : List Literal) :
    y ∈ insertLit x l ↔ y = x ∨ y ∈ l := by
  induction l with
  | nil => simp [insertLit]
  | cons z zs ih =>
    by_cases h1 : Literal.lt x z
    · simp [insertLit, h1]
    · by_cases h2 : x = z
      · subst h2; simp [insertLit, h1]
      · simp [insertLit, h1, h2, ih]; tauto

theorem sortedDedup_mem (x : Literal) (l : List Literal) :
    x ∈ sortedDedup l ↔ x ∈ l := by
  suffices h : ∀ acc, x ∈ l.foldl (fun acc y => insertLit y acc) acc ↔ x ∈ acc ∨ x ∈ l by
    simpa using h []
  induction l with
  | nil => simp
  | cons y ys ih =>
    intro acc
    simp only [List.foldl_cons, ih, insertLit_mem]
    simp [List.mem_cons]; tauto

theorem swapRemove_mem {l : List Expression} {i : Nat} {x : Expression}
    {rest : List Expression} (h : swapRemove l i = some (x, rest)) :
    ∀ y, (y = x ∨ y ∈ rest) ↔ y ∈ l := by
  induction l generalizing i x rest with
  | nil => simp [swapRemove] at h
  | cons a l' ih =>
    cases l' with
    | nil =>
      cases i with
      | zero =>
        simp [swapRemove] at h
        obtain ⟨rfl, rfl⟩ := h
        simp
      | succ j => simp [swapRemove] at h
    | cons b l'' =>
      have hne : (b :: l'' : List Expression) ≠ [] := by simp
      have hl : (b :: l'').getLast? = some ((b :: l'').getLast hne) :=
        List.getLast?_eq_getLast _ hne
      set last := (b :: l'').getLast hne with hlastdef
      cases i with
      | zero =>
        have hsw : swapRemove (a :: b :: l'') 0 =
            some (a, last :: (b :: l'').dropLast) := by
          simp [swapRemove, List.getLast?_cons_cons, hl, List.dropLast]
        rw [hsw] at h
        simp only [Option.some.injEq, Prod.mk.injEq] at h
        obtain ⟨rfl, rfl⟩ := h
        intro y
        have hmem := mem_iff_of_getLast? hl y
        simp only [List.mem_cons] at hmem ⊢
        rw [hmem]
        tauto
      | succ j =>
        cases hg : (b :: l'')[j]? with
        | none =>
          have : swapRemove (a :: b :: l'') (j + 1) = none := by
            simp [swapRemove, hg]
          rw [this] at h
          exact absurd h (by simp)
        | some z =>
          have hsetne : (b :: l'').set j last ≠ [] := by
            intro hc
            have := congrArg List.length hc
            simp at this
          have hdrop : ((a :: b :: l'').set (j + 1) last).dropLast =
              a :: ((b :: l'').set j last).dropLast := by
            have hs : (a :: b :: l'').set (j + 1) last = a :: (b :: l'').set j last := by
              simp
            rw [hs]
            cases hset : (b :: l'').set j last with
            | nil => exact absurd hset hsetne
            | cons c cs => simp [List.dropLast]
          have hsw : swapRemove (a :: b :: l'') (j + 1) =
              some (z, a :: ((b :: l'').set j last).dropLast) := by
            simp only [swapRemove, List.getElem?_cons_succ, hg, List.getLast?_cons_cons, hl,
              hdrop]
          rw [hsw] at h
          simp only [Option.some.injEq, Prod.mk.injEq] at h
          obtain ⟨rfl, rfl⟩ := h
          have hrec : swapRemove (b :: l'') j = some (z, ((b :: l'').set j last).dropLast) := by
            simp only [swapRemove, hg, hl]
          have ihx := ih hrec
          intro y
          have hy := ihx y
          simp only [List.mem_cons] at hy ⊢
          tauto

theorem flattenConjAux_sat {a : Nat → Bool} :
    ∀ fuel l out, flattenConjAux fuel l = some out →
      ((∀ e ∈ out, Sat a e) ↔ (∀ e ∈ l, Sat a e)) := by
  intro fuel
  induction fuel with
  | zero => intro l out h; simp [flattenConjAux] at h
  | succ f ih =>
    intro l out h
    cases l with
    | nil =>
      simp [flattenConjAux] at h
      subst h
      simp
    | cons e todo =>
      cases e with
      | conj nested =>
        cases hl : nested.getLast? with
        | none => simp [flattenConjAux, hl] at h
        | some last =>
          simp only [flattenConjAux, hl, Option.map_eq_some'] at h
          obtain ⟨out', hout', rfl⟩ := h
          have hiff := ih _ _ hout'
          have hsplit := forall_mem_of_getLast? hl (Sat a)
          simp only [List.forall_mem_append] at hiff
          simp only [List.forall_mem_cons]
          rw [hiff, sat_conj_iff, hsplit]
          tauto
      | disj nested =>
        simp only [flattenConjAux, Option.map_eq_some'] at h
        obtain ⟨out', hout', rfl⟩ := h
        have hiff := ih _ _ hout'
        simp only [List.forall_mem_cons]
        rw [hiff]
      | lit l0 =>
        simp only [flattenConjAux, Option.map_eq_some'] at h
        obtain ⟨out', hout', rfl⟩ := h
        have hiff := ih _ _ hout'
        simp only [List.forall_mem_cons]
        rw [hiff]

theorem flattenDisjAux_sat {a : Nat → Bool} :
    ∀ fuel l out, flattenDisjAux fuel l = some out →
      ((∃ e ∈ out, Sat a e) ↔ (∃ e ∈ l, Sat a e)) := by
  intro fuel
  induction fuel with
  | zero => intro l out h; simp [flattenDisjAux] at h
  | succ f ih =>
    intro l out h
    cases l with
    | nil =>
      simp [flattenDisjAux] at h
      subst h
      simp
    | cons e todo =>
      cases e with
      | disj nested =>
        cases hl : nested.getLast? with
        | none => simp [flattenDisjAux, hl] at h
        | some last =>
          simp only [flattenDisjAux, hl, Option.map_eq_some'] at h
          obtain ⟨out', hout', rfl⟩ := h
          have hiff := ih _ _ hout'
          have hsplit := exists_mem_of_getLast? hl (Sat a)
          have happ : (∃ e ∈ todo ++ nested.dropLast, Sat a e) ↔
              ((∃ e ∈ todo, Sat a e) ∨ (∃ e ∈ nested.dropLast, Sat a e)) := by
            constructor
            · rintro ⟨e, he, hs⟩
              rcases List.mem_append.mp he with h1 | h2
              · exact Or.inl ⟨e, h1, hs⟩
              · exact Or.inr ⟨e, h2, hs⟩
            · rintro (⟨e, h1, hs⟩ | ⟨e, h2, hs⟩)
              · exact ⟨e, List.mem_append.mpr (Or.inl h1), hs⟩
              · exact ⟨e, List.mem_append.mpr (Or.inr h2), hs⟩
          rw [happ] at hiff
          simp only [List.exists_mem_cons_iff]
          rw [hiff, sat_disj_iff, hsplit]
          constructor
          · rintro (h1 | (h2 | h3))
            · exact Or.inl (Or.inr h1)
            · exact Or.inr h2
            · exact Or.inl (Or.inl h3)
          · rintro ((h3 | h1) | h2)
            · exact Or.inr (Or.inr h3)
            · exact Or.inl h1
            · exact Or.inr (Or.inl h2)
      | conj nested =>
        simp only [flattenDisjAux, Option.map_eq_some'] at h
        obtain ⟨out', hout', rfl⟩ := h
        have hiff := ih _ _ hout'
        simp only [List.exists_mem_cons_iff]
        rw [hiff]
      | lit l0 =>
        simp only [flattenDisjAux, Option.map_eq_some'] at h
        obtain ⟨out', hout', rfl⟩ := h
        have hiff := ih _ _ hout'
        simp only [List.exists_mem_cons_iff]
        rw [hiff]

theorem distributeStep_sat {a : Nat → Bool} {out out2 : List Expression}
    (h : distributeStep out = some out2) :
    ((∃ e ∈ out2, Sat a e) ↔ (∃ e ∈ out, Sat a e)) := by
  unfold distributeStep at h
  split at h
  · simp only [Option.some.injEq] at h
    subst h
    exact Iff.rfl
  · rename_i fc hf
    split at h
    · rename_i hlen
      split at h
      · rename_i cargs rest hsw
        split at h
        · exact absurd h (by simp)
        · rename_i other hlast
          simp only [Option.some.injEq] at h
          subst h
          have hmem := swapRemove_mem hsw
          have hex := exists_mem_of_getLast? hlast (Sat a)
          have hdist : Sat a (.conj (cargs.map (fun arg => .disj [other, arg]))) ↔
              (Sat a other ∨ Sat a (.conj cargs)) := by
            rw [sat_conj_iff]
            constructor
            · intro hall
              by_cases ho : Sat a other
              · exact Or.inl ho
              · refine Or.inr (sat_conj_iff.mpr ?_)
                intro arg harg
                have hd := hall _ (List.mem_map_of_mem _ harg)
                rcases sat_disj_iff.mp hd with ⟨e, he, hs⟩
                simp only [List.mem_cons, List.not_mem_nil, or_false] at he
                rcases he with rfl | rfl
                · exact absurd hs ho
                · exact hs
            · intro hor x hx
              obtain ⟨arg, harg, rfl⟩ := List.mem_map.mp hx
              rcases hor with ho | hc
              · exact sat_disj_iff.mpr ⟨other, by simp, ho⟩
              · exact sat_disj_iff.mpr ⟨arg, by simp, sat_conj_iff.mp hc _ harg⟩
          constructor
          · intro hx
            rcases hx with ⟨e, he, hs⟩
            rcases List.mem_append.mp he with hd | hsing
            · have : ∃ y ∈ rest, Sat a y := hex.mpr (Or.inl ⟨e, hd, hs⟩)
              obtain ⟨y, hy, hys⟩ := this
              exact ⟨y, (hmem y).mp (Or.inr hy), hys⟩
            · rw [List.mem_singleton] at hsing
              subst hsing
              rcases hdist.mp hs with ho | hc
              · obtain ⟨y, hy, hys⟩ := hex.mpr (Or.inr ho)
                exact ⟨y, (hmem y).mp (Or.inr hy), hys⟩
              · exact ⟨_, (hmem _).mp (Or.inl rfl), hc⟩
          · rintro ⟨e, he, hs⟩
            rcases (hmem e).mpr he with rfl | hr
            · exact ⟨_, List.mem_append.mpr (Or.inr (List.mem_singleton.mpr rfl)),
                hdist.mpr (Or.inr hs)⟩
            · rcases hex.mp ⟨e, hr, hs⟩ with ⟨y, hy, hys⟩ | ho
              · exact ⟨y, List.mem_append.mpr (Or.inl hy), hys⟩
              · exact ⟨_, List.mem_append.mpr (Or.inr (List.mem_singleton.mpr rfl)),
                  hdist.mpr (Or.inl ho)⟩
      · exact absurd h (by simp)
    · simp only [Option.some.injEq] at h
      subst h
      exact Iff.rfl

theorem visitChildren_sat {a : Nat → Bool}
    {rv : Expression → Option (Expression × VisitorStatus)}
    (hrv : ∀ e e' s, rv e = some (e', s) → (Sat a e' ↔ Sat a e)) :
    ∀ {es rs}, visitChildren rv es = some rs →
      (((∀ p ∈ rs, Sat a p.1) ↔ (∀ e ∈ es, Sat a e)) ∧
       ((∃ p ∈ rs, Sat a p.1) ↔ (∃ e ∈ es, Sat a e))) := by
  intro es
  induction es with
  | nil =>
    intro rs h
    simp [visitChildren] at h
    subst h
    simp
  | cons e es ih =>
    intro rs h
    cases hre : rv e with
    | none => simp [visitChildren, hre] at h
    | some r =>
      cases hres : visitChildren rv es with
      | none => simp [visitChildren, hre, hres] at h
      | some rs' =>
        have hrs : rs = r :: rs' := by
          simp [visitChildren, hre, hres] at h
          exact h.symm
        subst hrs
        obtain ⟨e1, s1⟩ := r
        have h1 := hrv e e1 s1 hre
        have h2 := ih hres
        constructor
        · simp only [List.forall_mem_cons]
          rw [h1, h2.1]
        · simp only [List.exists_mem_cons_iff]
          rw [h1, h2.2]


theorem forall_map_fst_iff {a : Nat → Bool} (rs : List (Expression × VisitorStatus)) :
    (∀ x ∈ rs.map Prod.fst, Sat a x) ↔ (∀ p ∈ rs, Sat a p.1) := by
  constructor
  · intro hx p hp
    exact hx _ (List.mem_map_of_mem _ hp)
  · intro hx x hxm
    obtain ⟨p, hp, rfl⟩ := List.mem_map.mp hxm
    exact hx p hp

theorem exists_map_fst_iff {a : Nat → Bool} (rs : List (Expression × VisitorStatus)) :
    (∃ x ∈ rs.map Prod.fst, Sat a x) ↔ (∃ p ∈ rs, Sat a p.1) := by
  constructor
  · rintro ⟨x, hxm, hs⟩
    obtain ⟨p, hp, rfl⟩ := List.mem_map.mp hxm
    exact ⟨p, hp, hs⟩
  · rintro ⟨p, hp, hs⟩
    exact ⟨p.1, List.mem_map_of_mem _ hp, hs⟩

theorem rewriteVisitor_sat {a : Nat → Bool} :
    ∀ fuel e e' s, rewriteVisitor fuel e = some (e', s) → (Sat a e' ↔ Sat a e) := by
  intro fuel
  induction fuel with
  | zero => intro e e' s h; simp [rewriteVisitor] at h
  | succ f ih =>
    intro e e' s h
    cases e with
    | lit l =>
      simp [rewriteVisitor] at h
      obtain ⟨rfl, rfl⟩ := h
      exact Iff.rfl
    | conj es =>
      rw [rewriteVisitor] at h
      cases hvc : visitChildren (rewriteVisitor f) es with
      | none => simp only [hvc] at h; exact absurd h (by simp)
      | some rs =>
        simp only [hvc] at h
        have hpair := visitChildren_sat (fun e e' s hh => ih e e' s hh) hvc
        have hchain : (∀ p ∈ rs, Sat a p.1) ↔ Sat a (.conj es) := by
          rw [sat_conj_iff]; exact hpair.1
        cases hcond : conjChildrenOk rs with
        | true =>
          simp only [hcond] at h
          simp only [Option.some.injEq, Prod.mk.injEq] at h
          obtain ⟨h1, h2⟩ := h
          subst h1; subst h2
          rw [sat_conj_iff]
          exact (forall_map_fst_iff rs).trans hchain
        | false =>
          simp only [hcond] at h
          cases hes2 : rs.map Prod.fst with
          | nil =>
            simp only [hes2] at h
            cases hfl : flattenConjAux (f + 1) [] with
            | none => simp only [hfl] at h; exact absurd h (by simp)
            | some flat =>
              simp only [hfl, Option.some.injEq, Prod.mk.injEq] at h
              obtain ⟨h1, h2⟩ := h
              subst h1; subst h2
              have hf1 := flattenConjAux_sat (a := a) _ _ _ hfl
              rw [sat_conj_iff, hf1, ← hchain, ← forall_map_fst_iff rs, hes2]
          | cons x1 tl =>
            cases tl with
            | nil =>
              simp only [hes2, Option.some.injEq, Prod.mk.injEq] at h
              obtain ⟨h1, h2⟩ := h
              subst h1; subst h2
              have hsingle : (∀ y ∈ [x1], Sat a y) ↔ Sat a x1 := by simp
              rw [← hsingle, ← hes2, forall_map_fst_iff rs, hchain]
            | cons x2 tl2 =>
              simp only [hes2] at h
              cases hfl : flattenConjAux (f + 1) (x1 :: x2 :: tl2) with
              | none => simp only [hfl] at h; exact absurd h (by simp)
              | some flat =>
                simp only [hfl, Option.some.injEq, Prod.mk.injEq] at h
                obtain ⟨h1, h2⟩ := h
                subst h1; subst h2
                have hf1 := flattenConjAux_sat (a := a) _ _ _ hfl
                rw [sat_conj_iff, hf1, ← hchain, ← forall_map_fst_iff rs, hes2]
    | disj es =>
      rw [rewriteVisitor] at h
      cases hvc : visitChildren (rewriteVisitor f) es with
      | none => simp only [hvc] at h; exact absurd h (by simp)
      | some rs =>
        simp only [hvc] at h
        have hpair := visitChildren_sat (fun e e' s hh => ih e e' s hh) hvc
        have hchain : (∃ p ∈ rs, Sat a p.1) ↔ Sat a (.disj es) := by
          rw [sat_disj_iff]; exact hpair.2
        cases hcond : disjChildrenOk rs with
        | true =>
          simp only [hcond] at h
          simp only [Option.some.injEq, Prod.mk.injEq] at h
          obtain ⟨h1, h2⟩ := h
          subst h1; subst h2
          rw [sat_disj_iff]
          exact (exists_map_fst_iff rs).trans hchain
        | false =>
          simp only [hcond] at h
          cases hes2 : rs.map Prod.fst with
          | nil =>
            simp only [hes2] at h
            cases hfl : flattenDisjAux (f + 1) [] with
            | none => simp only [hfl] at h; exact absurd h (by simp)
            | some flat =>
              simp only [hfl] at h
              cases hds : distributeStep flat with
              | none => simp only [hds] at h; exact absurd h (by simp)
              | some out =>
                simp only [hds, Option.some.injEq, Prod.mk.injEq] at h
                obtain ⟨h1, h2⟩ := h
                subst h1; subst h2
                have hf1 := flattenDisjAux_sat (a := a) _ _ _ hfl
                have hd1 := distributeStep_sat (a := a) hds
                rw [sat_disj_iff, hd1, hf1, ← hchain, ← exists_map_fst_iff rs, hes2]
          | cons x1 tl =>
            cases tl with
            | nil =>
              simp only [hes2, Option.some.injEq, Prod.mk.injEq] at h
              obtain ⟨h1, h2⟩ := h
              subst h1; subst h2
              have hsingle : (∃ y ∈ [x1], Sat a y) ↔ Sat a x1 := by simp
              rw [← hsingle, ← hes2, exists_map_fst_iff rs, hchain]
            | cons x2 tl2 =>
              simp only [hes2] at h
              cases hfl : flattenDisjAux (f + 1) (x1 :: x2 :: tl2) with
              | none => simp only [hfl] at h; exact absurd h (by simp)
              | some flat =>
                simp only [hfl] at h
                cases hds : distributeStep flat with
                | none => simp only [hds] at h; exact absurd h (by simp)
                | some out =>
                  simp only [hds, Option.some.injEq, Prod.mk.injEq] at h
                  obtain ⟨h1, h2⟩ := h
                  subst h1; subst h2
                  have hf1 := flattenDisjAux_sat (a := a) _ _ _ hfl
                  have hd1 := distributeStep_sat (a := a) hds
                  rw [sat_disj_iff, hd1, hf1, ← hchain, ← exists_map_fst_iff rs, hes2]

theorem toCnfLoop_sat {a : Nat → Bool} :
    ∀ fuel e e1, toCnfLoop fuel e = some e1 → (Sat a e1 ↔ Sat a e) := by
  intro fuel
  induction fuel with
  | zero => intro e e1 h; simp [toCnfLoop] at h
  | succ f ih =>
    intro e e1 h
    rw [toCnfLoop] at h
    cases hrv : rewriteVisitor (f + 1) e with
    | none => rw [hrv] at h; exact absurd h (by simp)
    | some p =>
      obtain ⟨e2, s⟩ := p
      rw [hrv] at h
      have h1 := rewriteVisitor_sat (a := a) (f + 1) e e2 s hrv
      cases s with
      | cnf =>
        simp only [Option.some.injEq] at h
        subst h
        exact h1
      | cnfClause =>
        simp only [Option.some.injEq] at h
        subst h
        exact h1
      | literal =>
        simp only [Option.some.injEq] at h
        subst h
        exact h1
      | other => exact (ih _ _ h).trans h1

theorem mapOption_litOf_eq : ∀ {args : List Expression} {lits : List Literal},
    mapOption litOf args = some lits → args = lits.map Expression.lit := by
  intro args
  induction args with
  | nil =>
    intro lits h
    simp [mapOption] at h
    subst h
    rfl
  | cons e es ih =>
    intro lits h
    cases hfe : litOf e with
    | none => simp [mapOption, hfe] at h
    | some l =>
      cases hrest : mapOption litOf es with
      | none => simp [mapOption, hfe, hrest] at h
      | some tl =>
        simp only [mapOption, hfe, hrest, Option.some.injEq] at h
        subst h
        cases e with
        | lit l0 =>
          obtain rfl : l0 = l := by simpa [litOf] using hfe
          simp [ih hrest]
        | conj es2 => simp [litOf] at hfe
        | disj es2 => simp [litOf] at hfe

theorem clauseOf_sat {a : Nat → Bool} {e : Expression} {c : Clause}
    (h : clauseOf e = some c) : ((∃ l ∈ c, l.eval a = true) ↔ Sat a e) := by
  cases e with
  | conj es => simp [clauseOf] at h
  | lit l =>
    simp [clauseOf] at h
    subst h
    simp [sat_lit_iff]
  | disj args =>
    simp only [clauseOf] at h
    cases hm : mapOption litOf args with
    | none => rw [hm] at h; exact absurd h (by simp)
    | some lits =>
      rw [hm] at h
      simp only [Option.some.injEq] at h
      subst h
      have harg := mapOption_litOf_eq hm
      subst harg
      rw [sat_disj_iff]
      constructor
      · rintro ⟨l, hl, he⟩
        rw [sortedDedup_mem] at hl
        exact ⟨.lit l, List.mem_map_of_mem _ hl, sat_lit_iff.mpr he⟩
      · rintro ⟨x, hx, hs⟩
        obtain ⟨l, hl, rfl⟩ := List.mem_map.mp hx
        exact ⟨l, (sortedDedup_mem _ _).mpr hl, sat_lit_iff.mp hs⟩

theorem finalize_conj_sat {a : Nat → Bool} :
    ∀ (es : List Expression) (cs : List Clause), mapOption clauseOf es = some cs →
      (SatCnf a cs ↔ ∀ e ∈ es, Sat a e) := by
  intro es
  induction es with
  | nil =>
    intro cs h
    simp [mapOption] at h
    subst h
    simp [SatCnf]
  | cons e es ih =>
    intro cs h
    cases hc : clauseOf e with
    | none => simp [mapOption, hc] at h
    | some c =>
      cases hrest : mapOption clauseOf es with
      | none => simp [mapOption, hc, hrest] at h
      | some cs' =>
        simp only [mapOption, hc, hrest, Option.some.injEq] at h
        subst h
        have h1 := clauseOf_sat (a := a) hc
        have h2 := ih _ hrest
        simp only [SatCnf, List.forall_mem_cons] at h2 ⊢
        rw [h1]
        constructor
        · rintro ⟨ha1, ha2⟩
          exact ⟨ha1, h2.mp ha2⟩
        · rintro ⟨ha1, ha2⟩
          exact ⟨ha1, h2.mpr ha2⟩

theorem singleton_clause_sat {a : Nat → Bool} {e : Expression} {c : Clause}
    (hc : clauseOf e = some c) : (SatCnf a [c] ↔ Sat a e) := by
  have h1 := clauseOf_sat (a := a) hc
  constructor
  · intro hall
    exact h1.mp (hall c (by simp))
  · intro hs c2 hc2
    simp only [List.mem_singleton] at hc2
    subst hc2
    exact h1.mpr hs

theorem finalize_sat {a : Nat → Bool} {e : Expression} {cs : List Clause}
    (h : finalize e = some cs) : (SatCnf a cs ↔ Sat a e) := by
  cases e with
  | conj es => exact finalize_conj_sat es cs h |>.trans sat_conj_iff.symm
  | disj args =>
    simp only [finalize] at h
    cases hc : clauseOf (.disj args) with
    | none => rw [hc] at h; exact absurd h (by simp)
    | some c =>
      rw [hc] at h
      simp only [Option.some.injEq] at h
      subst h
      exact singleton_clause_sat hc
  | lit l =>
    simp only [finalize] at h
    cases hc : clauseOf (.lit l) with
    | none => rw [hc] at h; exact absurd h (by simp)
    | some c =>
      rw [hc] at h
      simp only [Option.some.injEq] at h
      subst h
      exact singleton_clause_sat hc

/-- C1. For every propositional `Expression`, the clause list returned by
`Expression::to_cnf` is equivalent to the original expression under classical
propositional semantics: an assignment satisfies the conjunction of all
returned clauses if and only if it satisfies the original expression. -/
theorem to_cnf_equisatisfiable {fuel : Nat} {e : Expression} {cs : List Clause}
    (h : Expression.to_cnf fuel e = some cs) (a : Nat → Bool) :
    SatCnf a cs ↔ Sat a e := by
  rw [Expression.to_cnf] at h
  cases hl : toCnfLoop fuel e with
  | none => rw [hl] at h; exact absurd h (by simp)
  | some e1 =>
    rw [hl] at h
    exact (finalize_sat h).trans (toCnfLoop_sat fuel e e1 hl)

/-- Witness for C1: the distribution example `x₁ ∨ (x₂ ∧ x₃)` from the
repository's own test, evaluated under the all-true assignment. -/
theorem to_cnf_equisatisfiable_witness :
    Expression.to_cnf 5 (.disj [.lit (.pos 1), .conj [.lit (.pos 2), .lit (.pos 3)]]) =
      some [[Literal.pos 1, Literal.pos 2], [Literal.pos 1, Literal.pos 3]] ∧
    (SatCnf (fun _ => true) [[Literal.pos 1, Literal.pos 2], [Literal.pos 1, Literal.pos 3]] ↔
      Sat (fun _ => true) (.disj [.lit (.pos 1), .conj [.lit (.pos 2), .lit (.pos 3)]])) :=
  ⟨rfl, @to_cnf_equisatisfiable 5 (.disj [.lit (.pos 1), .conj [.lit (.pos 2), .lit (.pos 3)]])
    [[Literal.pos 1, Literal.pos 2], [Literal.pos 1, Literal.pos 3]] rfl (fun _ => true)⟩

/-! ## Idempotence on already-CNF expressions (claim C9) -/

/-- Is the expression a bare literal? -/
def isLitE : Expression → Bool
  | .lit _ => true
  | _ => false

/-- Is the expression a disjunction of literals? -/
def isDisjLits : Expression → Bool
  | .disj es => es.all isLitE
  | _ => false

/-- The claim's "already in conjunctive normal form" shape: a conjunction
whose children are all disjunctions of literals or literals, a single such
disjunction, or a single literal. -/
def isCnfE : Expression → Bool
  | .conj es => es.all fun c => isDisjLits c || isLitE c
  | .disj es => es.all isLitE
  | .lit _ => true

/-- The literals already present in one CNF-shaped clause expression. -/
def clauseLits : Expression → List Literal
  | .disj args => args.filterMap litOf
  | .lit l => [l]
  | .conj _ => []

/-- The clause list already present in a CNF-shaped expression. -/
def inputClauses : Expression → List Clause
  | .conj es => es.map clauseLits
  | e => [clauseLits e]

theorem rv_lit (f : Nat) (l : Literal) :
    rewriteVisitor (f + 1) (.lit l) = some (.lit l, .literal) := rfl

theorem visitChildren_lits (f : Nat) :
    ∀ es : List Expression, es.all isLitE = true →
      visitChildren (rewriteVisitor (f + 1)) es =
        some (es.map (fun e => (e, VisitorStatus.literal))) := by
  intro es
  induction es with
  | nil => intro h; rfl
  | cons e es ih =>
    intro h
    simp only [List.all_cons, Bool.and_eq_true] at h
    obtain ⟨he, hes⟩ := h
    cases e with
    | lit l => simp [visitChildren, rv_lit, ih hes]
    | conj es2 => simp [isLitE] at he
    | disj es2 => simp [isLitE] at he

theorem rv_disj_lits (f : Nat) {es : List Expression} (h : es.all isLitE = true) :
    rewriteVisitor (f + 2) (.disj es) = some (.disj es, .cnfClause) := by
  have h1 := visitChildren_lits f es h
  have hok : disjChildrenOk (es.map (fun e => (e, VisitorStatus.literal))) = true := by
    rw [disjChildrenOk, List.all_eq_true]
    intro r hr
    obtain ⟨e, he, rfl⟩ := List.mem_map.mp hr
    simp
  show rewriteVisitor ((f + 1) + 1) (.disj es) = _
  rw [rewriteVisitor]
  simp only [h1, hok]
  simp [List.map_map, Function.comp_def]

theorem rv_cnf_child (f : Nat) {c : Expression} (h : (isDisjLits c || isLitE c) = true) :
    ∃ s, rewriteVisitor (f + 2) c = some (c, s) ∧
      (s = VisitorStatus.cnfClause ∨ s = VisitorStatus.literal) := by
  cases c with
  | lit l => exact ⟨.literal, rfl, Or.inr rfl⟩
  | disj es =>
    have hall : es.all isLitE = true := by
      simpa [isDisjLits, isLitE] using h
    exact ⟨.cnfClause, rv_disj_lits f hall, Or.inl rfl⟩
  | conj es => simp [isDisjLits, isLitE] at h

theorem visitChildren_cnf (f : Nat) :
    ∀ es : List Expression, (es.all fun c => isDisjLits c || isLitE c) = true →
      ∃ rs, visitChildren (rewriteVisitor (f + 2)) es = some rs ∧
        rs.map Prod.fst = es ∧ conjChildrenOk rs = true := by
  intro es
  induction es with
  | nil => intro h; exact ⟨[], rfl, rfl, rfl⟩
  | cons c es ih =>
    intro h
    simp only [List.all_cons, Bool.and_eq_true] at h
    obtain ⟨hc, hes⟩ := h
    obtain ⟨s, hs, hsok⟩ := rv_cnf_child f hc
    obtain ⟨rs, hrs, hmap, hok⟩ := ih hes
    refine ⟨(c, s) :: rs, ?_, ?_, ?_⟩
    · simp [visitChildren, hs, hrs]
    · simp [hmap]
    · rw [conjChildrenOk, List.all_cons]
      have h1 : decide (s = VisitorStatus.cnfClause ∨ s = VisitorStatus.literal) = true :=
        decide_eq_true hsok
      rw [h1]
      simpa [conjChildrenOk] using hok

theorem rv_cnf (f : Nat) {e : Expression} (h : isCnfE e = true) :
    ∃ s, rewriteVisitor (f + 3) e = some (e, s) ∧
      (s = VisitorStatus.cnf ∨ s = VisitorStatus.cnfClause ∨ s = VisitorStatus.literal) := by
  cases e with
  | lit l => exact ⟨.literal, rfl, by simp⟩
  | disj es =>
    refine ⟨.cnfClause, ?_, by simp⟩
    have hall : es.all isLitE = true := by simpa [isCnfE] using h
    exact rv_disj_lits (f + 1) hall
  | conj es =>
    have hall : (es.all fun c => isDisjLits c || isLitE c) = true := by
      simpa [isCnfE] using h
    obtain ⟨rs, hrs, hmap, hok⟩ := visitChildren_cnf f es hall
    refine ⟨.cnf, ?_, by simp⟩
    show rewriteVisitor ((f + 2) + 1) (.conj es) = _
    rw [rewriteVisitor]
    simp only [hrs, hok, hmap]

theorem toCnfLoop_cnf (f : Nat) {e : Expression} (h : isCnfE e = true) :
    toCnfLoop (f + 3) e = some e := by
  obtain ⟨s, hs, hsok⟩ := rv_cnf f h
  rw [show f + 3 = (f + 2) + 1 from rfl, toCnfLoop]
  rw [show (f + 2) + 1 = f + 3 from rfl, hs]
  rcases hsok with rfl | rfl | rfl <;> rfl

theorem mapOption_litOf_all :
    ∀ es : List Expression, es.all isLitE = true →
      mapOption litOf es = some (es.filterMap litOf) := by
  intro es
  induction es with
  | nil => intro h; rfl
  | cons e es ih =>
    intro h
    simp only [List.all_cons, Bool.and_eq_true] at h
    obtain ⟨he, hes⟩ := h
    cases e with
    | lit l => simp [mapOption, litOf, ih hes, List.filterMap_cons]
    | conj es2 => simp [isLitE] at he
    | disj es2 => simp [isLitE] at he

theorem clauseOf_cnf_child {c : Expression} (h : (isDisjLits c || isLitE c) = true) :
    clauseOf c = some (sortedDedup (clauseLits c)) := by
  cases c with
  | lit l => rfl
  | disj args =>
    have hall : args.all isLitE = true := by simpa [isDisjLits, isLitE] using h
    rw [clauseOf]
    simp only [mapOption_litOf_all args hall]
    rfl
  | conj es => simp [isDisjLits, isLitE] at h

theorem mapOption_clauseOf_cnf :
    ∀ es : List Expression, (es.all fun c => isDisjLits c || isLitE c) = true →
      mapOption clauseOf es = some (es.map (fun c => sortedDedup (clauseLits c))) := by
  intro es
  induction es with
  | nil => intro h; rfl
  | cons c es ih =>
    intro h
    simp only [List.all_cons, Bool.and_eq_true] at h
    obtain ⟨hc, hes⟩ := h
    simp [mapOption, clauseOf_cnf_child hc, ih hes]

theorem finalize_cnf {e : Expression} (h : isCnfE e = true) :
    finalize e = some ((inputClauses e).map sortedDedup) := by
  cases e with
  | conj es =>
    have hall : (es.all fun c => isDisjLits c || isLitE c) = true := by
      simpa [isCnfE] using h
    rw [finalize]
    rw [mapOption_clauseOf_cnf es hall]
    simp [inputClauses, List.map_map, Function.comp]
  | disj args =>
    have hc : clauseOf (.disj args) = some (sortedDedup (clauseLits (.disj args))) := by
      apply clauseOf_cnf_child
      have hall : args.all isLitE = true := by simpa [isCnfE] using h
      simp [isDisjLits, hall]
    simp only [finalize, hc]
    rfl
  | lit l => rfl

/-- C9 (amended). For every Expression already in conjunctive normal form,
`Expression::to_cnf` produces the input's own clause list, with each clause's
literals deduplicated and sorted (identical up to ordering **and
deduplication** of literals within each clause). -/
theorem to_cnf_idempotent {e : Expression} (h : isCnfE e = true) (f : Nat) :
    Expression.to_cnf (f + 3) e = some ((inputClauses e).map sortedDedup) := by
  rw [Expression.to_cnf]
  simp only [toCnfLoop_cnf f h]
  exact finalize_cnf h

/-- Witness for C9 (amended): the repository's own test expression
`x₁ ∧ (x₂ ∨ x₃)`. -/
theorem to_cnf_idempotent_witness :
    isCnfE (.conj [.lit (.pos 1), .disj [.lit (.pos 2), .lit (.pos 3)]]) = true ∧
    Expression.to_cnf 3 (.conj [.lit (.pos 1), .disj [.lit (.pos 2), .lit (.pos 3)]]) =
      some ((inputClauses (.conj [.lit (.pos 1), .disj [.lit (.pos 2), .lit (.pos 3)]])).map
        sortedDedup) :=
  ⟨rfl, @to_cnf_idempotent (.conj [.lit (.pos 1), .disj [.lit (.pos 2), .lit (.pos 3)]]) rfl 0⟩

/-- Counterexample to C9 as stated: the already-CNF expression `x₁ ∨ x₁`
(a disjunction of literals) converts to the single clause `[x₁]`, which is
not a permutation of the input clause `[x₁, x₁]` — `to_cnf` deduplicates
literals, so the output is not identical to the input's clauses up to
ordering alone. -/
theorem to_cnf_idempotence_counterexample :
    isCnfE (.disj [.lit (.pos 1), .lit (.pos 1)]) = true ∧
    Expression.to_cnf 3 (.disj [.lit (.pos 1), .lit (.pos 1)]) = some [[Literal.pos 1]] ∧
    inputClauses (.disj [.lit (.pos 1), .lit (.pos 1)]) = [[Literal.pos 1, Literal.pos 1]] ∧
    ¬ List.Forall₂ List.Perm [[Literal.pos 1]] [[Literal.pos 1, Literal.pos 1]] := by
  refine ⟨rfl, rfl, rfl, ?_⟩
  intro hcon
  cases hcon with
  | cons hp _ => exact absurd hp.length_eq (by simp)

/-! ## Data model of the transactions workload and the GNF builder -/

/-- `enum Operation { Get(GetOperation), Insert(InsertOperation), Remove(RemoveOperation) }`;
keys and values are byte strings, embedded as `List Nat`. -/
inductive Operation where
  | get (key : List Nat) : Operation
  | insert (key : List Nat) (value : List Nat) : Operation
  | remove (key : List Nat) : Operation
deriving DecidableEq, Repr

/-- `Operation::key`. -/
def Operation.key : Operation → List Nat
  | .get k => k
  | .insert k _ => k
  | .remove k => k

/-- `struct TransactionSpec { ops: Vec<Operation> }`. -/
structure TransactionSpec where
  ops : List Operation
deriving DecidableEq, Repr

/-- `enum TransactionStatus { NeverRan, Crashed(..), Completed(..) }`.
`completed` carries `start`, `end` and `get_results` (one slot per op). -/
inductive TransactionStatus where
  | neverRan : TransactionStatus
  | crashed (start : Nat) : TransactionStatus
  | completed (start : Nat) (endTs : Nat) (get_results : List (Option (List Nat))) :
      TransactionStatus
deriving DecidableEq, Repr

/-- `enum TransactionOutput { Start(..), End(..) }`: one record of the
workload's JSON stream. -/
inductive TransactionOutput where
  | start (transaction_idx : Nat) (start : Nat) : TransactionOutput
  | end_ (transaction_idx : Nat) (endTs : Nat) (get_results : List (Option (List Nat))) :
      TransactionOutput
deriving DecidableEq, Repr

/-- A directed edge of the GNF graph: node indices plus the controlling
variable (`struct Edge { from: Node, to: Node, variable: Variable }`). -/
structure EdgeR where
  src : Nat
  dst : Nat
  var : Nat
deriving DecidableEq, Repr

/-- `struct Gnf`, with the diagnostic comment strings dropped: a variable
counter (variable 1 is the reserved acyclicity variable), the commented
clause groups (`meta_clauses`, one `List Clause` per group), a node counter
and the edge list. -/
structure Gnf where
  n_variables : Nat
  meta_clauses : List (List Clause)
  n_nodes : Nat
  edges : List EdgeR
deriving DecidableEq, Repr

/-- `Gnf::new()`: one variable (the acyclicity variable, index 1), nothing else. -/
def Gnf.new : Gnf :=
  { n_variables := 1, meta_clauses := [], n_nodes := 0, edges := [] }

/-- `Gnf::add_variable`: bump the counter and return the fresh index. -/
def Gnf.add_variable (g : Gnf) : Nat × Gnf :=
  (g.n_variables + 1, { g with n_variables := g.n_variables + 1 })

/-- `Gnf::add_node`: return the next node index and bump the counter. -/
def Gnf.add_node (g : Gnf) : Nat × Gnf :=
  (g.n_nodes, { g with n_nodes := g.n_nodes + 1 })

/-- `Gnf::add_edge`. -/
def Gnf.add_edge (g : Gnf) (src dst v : Nat) : Gnf :=
  { g with edges := g.edges ++ [⟨src, dst, v⟩] }

/-- `Gnf::add_clause`: append a group holding a single clause. -/
def Gnf.add_clause (g : Gnf) (c : Clause) : Gnf :=
  { g with meta_clauses := g.meta_clauses ++ [[c]] }

/-- `Gnf::add_clauses`: append one group holding all the given clauses. -/
def Gnf.add_clauses (g : Gnf) (cs : List Clause) : Gnf :=
  { g with meta_clauses := g.meta_clauses ++ [cs] }

/-- `Gnf::acyclic_variable`: the reserved variable 1. -/
def Gnf.acyclic_variable (_ : Gnf) : Nat := 1

/-! ## Trace ingest (claims C5, C2, C3) -/

/-- Track the maximum observed timestamp, as the `if let Some(old) = …`
blocks of `main` do for each `Start`/`End` record. -/
def updMax (m : Option Nat) (t : Nat) : Option Nat :=
  match m with
  | some old => if t > old then some t else some old
  | none => some t

/-- The timestamp carried by a record. -/
def TransactionOutput.timestamp : TransactionOutput → Nat
  | .start _ s => s
  | .end_ _ e _ => e

/-- Process one `TransactionOutput` record against the status table and the
maximum-timestamp tracker; `none` is a panic (double start, end before
start — by order or by timestamp — or an out-of-range transaction index). -/
def ingestStep (st : List TransactionStatus × Option Nat) (rec : TransactionOutput) :
    Option (List TransactionStatus × Option Nat) :=
  match rec with
  | .start idx s =>
    let m' := updMax st.2 s
    match st.1[idx]? with
    | none => none
    | some TransactionStatus.neverRan => some (st.1.set idx (.crashed s), m')
    | some (TransactionStatus.crashed _) => none
    | some (TransactionStatus.completed _ _ _) => none
  | .end_ idx e grs =>
    let m' := updMax st.2 e
    match st.1[idx]? with
    | none => none
    | some TransactionStatus.neverRan => none
    | some (TransactionStatus.crashed s) =>
      if e < s then none
      else some (st.1.set idx (.completed s e grs), m')
    | some (TransactionStatus.completed _ _ _) => none

/-- Ingest a whole record stream over `n` transactions, starting from
`NeverRan` everywhere and no observed timestamp. -/
def ingest (n : Nat) (recs : List TransactionOutput) :
    Option (List TransactionStatus × Option Nat) :=
  recs.foldlM ingestStep (List.replicate n .neverRan, none)

/-- The maximum timestamp across all Start/End records, tracked directly. -/
def maxTimestampOf (recs : List TransactionOutput) : Option Nat :=
  recs.foldl (fun m r => updMax m r.timestamp) none

/-- `max_timestamp.unwrap_or_default() * 11 / 10` in `u128` arithmetic. -/
def pointReadTimestamp (m : Option Nat) : Nat :=
  m.getD 0 * 11 % 2 ^ 128 / 10

/-- The synthetic point-read transaction's status built in `main`. -/
def pointReadStatus (m : Option Nat) (grs : List (Option (List Nat))) : TransactionStatus :=
  .completed (pointReadTimestamp m) (pointReadTimestamp m) grs

/-- The spec's asserted formula for the synthetic timestamp. Modelled from
the spec: `ceil(1.1 × max observed timestamp)`, i.e. `⌈11·m/10⌉` over the
naturals. -/
def ceilTimestamp (m : Nat) : Nat := (m * 11 + 9) / 10

/-- C5. Trace-ingest transitions: a `Start` for a `NeverRan` transaction
promotes it to `Crashed{start}`; a `Start` for a `Crashed` or `Completed`
transaction is fatal; an `End` for a `Crashed{start}` transaction with
`end ≥ start` promotes it to `Completed{start, end, get_results}`; an `End`
with `end < start`, an `End` in state `NeverRan`, or an `End` after
`Completed` is fatal. -/
theorem ingestStep_transitions (res : List TransactionStatus) (m : Option Nat)
    (idx s e : Nat) (grs : List (Option (List Nat))) :
    (res[idx]? = some .neverRan →
      ingestStep (res, m) (.start idx s) = some (res.set idx (.crashed s), updMax m s)) ∧
    (∀ s0, res[idx]? = some (.crashed s0) → ingestStep (res, m) (.start idx s) = none) ∧
    (∀ s0 e0 g0, res[idx]? = some (.completed s0 e0 g0) →
      ingestStep (res, m) (.start idx s) = none) ∧
    (∀ s0, res[idx]? = some (.crashed s0) → s0 ≤ e →
      ingestStep (res, m) (.end_ idx e grs) =
        some (res.set idx (.completed s0 e grs), updMax m e)) ∧
    (∀ s0, res[idx]? = some (.crashed s0) → e < s0 →
      ingestStep (res, m) (.end_ idx e grs) = none) ∧
    (res[idx]? = some .neverRan → ingestStep (res, m) (.end_ idx e grs) = none) ∧
    (∀ s0 e0 g0, res[idx]? = some (.completed s0 e0 g0) →
      ingestStep (res, m) (.end_ idx e grs) = none) := by
  refine ⟨?_, ?_, ?_, ?_, ?_, ?_, ?_⟩
  · intro h; simp [ingestStep, h]
  · intro s0 h; simp [ingestStep, h]
  · intro s0 e0 g0 h; simp [ingestStep, h]
  · intro s0 h hle
    simp [ingestStep, h, Nat.not_lt.mpr hle]
  · intro s0 h hlt
    simp [ingestStep, h, hlt]
  · intro h; simp [ingestStep, h]
  · intro s0 e0 g0 h; simp [ingestStep, h]

/-- Witness for C5: a `Start` record promoting transaction 0. -/
theorem ingestStep_transitions_witness :
    ingestStep ([TransactionStatus.neverRan], none) (.start 0 5) =
      some ([TransactionStatus.crashed 5], some 5) :=
  (ingestStep_transitions [.neverRan] none 0 5 7 []).1 rfl

theorem updMax_mono {m : Option Nat} {mv t : Nat} (h : m = some mv) :
    ∃ mv', updMax m t = some mv' ∧ mv ≤ mv' := by
  subst h
  by_cases hlt : t > mv
  · exact ⟨t, by simp [updMax, hlt], Nat.le_of_lt hlt⟩
  · exact ⟨mv, by simp [updMax, hlt], Nat.le_refl mv⟩

theorem updMax_ge (m : Option Nat) (t : Nat) :
    ∃ mv', updMax m t = some mv' ∧ t ≤ mv' := by
  cases m with
  | none => exact ⟨t, rfl, Nat.le_refl t⟩
  | some old =>
    by_cases hlt : t > old
    · exact ⟨t, by simp [updMax, hlt], Nat.le_refl t⟩
    · exact ⟨old, by simp [updMax, hlt], Nat.le_of_not_lt hlt⟩

/-- The per-state invariant carried through ingest: every `Completed` entry's
end timestamp is bounded by the tracked maximum. -/
def IngestInv (st : List TransactionStatus × Option Nat) : Prop :=
  ∀ x ∈ st.1, ∀ s e grs, x = TransactionStatus.completed s e grs →
    ∃ mv, st.2 = some mv ∧ e ≤ mv

theorem ingestStep_inv {st st' : List TransactionStatus × Option Nat}
    {rec : TransactionOutput} (hstep : ingestStep st rec = some st')
    (hinv : IngestInv st) : IngestInv st' := by
  obtain ⟨res, m⟩ := st
  cases rec with
  | start idx s =>
    cases hg : res[idx]? with
    | none => simp [ingestStep, hg] at hstep
    | some cur =>
      cases cur with
      | neverRan =>
        simp only [ingestStep, hg, Option.some.injEq] at hstep
        subst hstep
        intro x hx s1 e1 g1 hxe
        rcases List.mem_or_eq_of_mem_set hx with hmem | rfl
        · obtain ⟨mv, hm, hle⟩ := hinv x hmem s1 e1 g1 hxe
          obtain ⟨mv', hm', hle'⟩ := updMax_mono (t := s) hm
          exact ⟨mv', hm', Nat.le_trans hle hle'⟩
        · exact absurd hxe (by simp)
      | crashed s0 => simp [ingestStep, hg] at hstep
      | completed s0 e0 g0 => simp [ingestStep, hg] at hstep
  | end_ idx e grs =>
    cases hg : res[idx]? with
    | none => simp [ingestStep, hg] at hstep
    | some cur =>
      cases cur with
      | neverRan => simp [ingestStep, hg] at hstep
      | crashed s0 =>
        by_cases hlt : e < s0
        · simp [ingestStep, hg, hlt] at hstep
        · simp only [ingestStep, hg, if_neg hlt, Option.some.injEq] at hstep
          subst hstep
          intro x hx s1 e1 g1 hxe
          rcases List.mem_or_eq_of_mem_set hx with hmem | rfl
          · obtain ⟨mv, hm, hle⟩ := hinv x hmem s1 e1 g1 hxe
            obtain ⟨mv', hm', hle'⟩ := updMax_mono (t := e) hm
            exact ⟨mv', hm', Nat.le_trans hle hle'⟩
          · obtain ⟨mv', hm', hle'⟩ := updMax_ge m e
            cases hxe
            exact ⟨mv', hm', hle'⟩
      | completed s0 e0 g0 => simp [ingestStep, hg] at hstep

theorem foldlM_ingest_inv :
    ∀ (recs : List TransactionOutput) (st st' : List TransactionStatus × Option Nat),
      List.foldlM ingestStep st recs = some st' → IngestInv st → IngestInv st' := by
  intro recs
  induction recs with
  | nil =>
    intro st st' h hinv
    simp at h
    subst h
    exact hinv
  | cons r rs ih =>
    intro st st' h hinv
    rw [List.foldlM_cons] at h
    cases hs : ingestStep st r with
    | none => rw [hs] at h; exact absurd h (by simp)
    | some st1 =>
      rw [hs] at h
      exact ih st1 st' h (ingestStep_inv hs hinv)

theorem ingest_completed_le_max {n : Nat} {recs : List TransactionOutput}
    {res : List TransactionStatus} {m : Option Nat}
    (h : ingest n recs = some (res, m)) :
    ∀ st ∈ res, ∀ s e grs, st = TransactionStatus.completed s e grs →
      ∃ mv, m = some mv ∧ e ≤ mv := by
  have hinv0 : IngestInv (List.replicate n TransactionStatus.neverRan, none) := by
    intro x hx s e grs hxe
    rw [List.eq_of_mem_replicate hx] at hxe
    exact absurd hxe (by simp)
  exact foldlM_ingest_inv recs _ (res, m) h hinv0

/-- C2 (amended). For every successfully ingested trace whose maximum
observed timestamp is at least 10 and whose `max × 11` does not overflow
`u128`, the synthetic point-read timestamp `max × 11 / 10` is strictly
greater than the end timestamp of every Completed transaction. (Without the
`max ≥ 10` bound the claim fails: integer division makes `max × 11 / 10 =
max` for `max < 10`.) -/
theorem pointReadTimestamp_after_ends {n : Nat} {recs : List TransactionOutput}
    {res : List TransactionStatus} {m : Option Nat}
    (h : ingest n recs = some (res, m)) (h10 : 10 ≤ m.getD 0)
    (hov : m.getD 0 * 11 < 2 ^ 128) :
    ∀ st ∈ res, ∀ s e grs, st = TransactionStatus.completed s e grs →
      e < pointReadTimestamp m := by
  intro st hst s e grs heq
  obtain ⟨mv, rfl, hle⟩ := ingest_completed_le_max h st hst s e grs heq
  simp only [Option.getD_some] at h10 hov
  have hpt : pointReadTimestamp (some mv) = mv * 11 / 10 := by
    simp only [pointReadTimestamp, Option.getD_some]
    rw [Nat.mod_eq_of_lt hov]
  rw [hpt]
  omega

/-- Witness for C2 (amended): a single transaction spanning timestamps 10–20;
the synthetic timestamp is 22 > 20. -/
theorem pointReadTimestamp_after_ends_witness :
    ingest 1 [.start 0 10, .end_ 0 20 []] =
      some ([TransactionStatus.completed 10 20 []], some 20) ∧
    (20 : Nat) < pointReadTimestamp (some 20) := by
  constructor
  · rfl
  · exact @pointReadTimestamp_after_ends 1 [.start 0 10, .end_ 0 20 []]
      [TransactionStatus.completed 10 20 []] (some 20) rfl (by decide) (by decide)
      (TransactionStatus.completed 10 20 []) (by decide) 10 20 [] rfl

/-- Counterexample to C2 as stated: the trace `Start(0,0); End(0,0)` ingests
successfully, contains a Completed transaction with end 0, yet the synthetic
timestamp `0 × 11 / 10 = 0` is not strictly greater than that end. -/
theorem pointReadTimestamp_after_ends_counterexample :
    ingest 1 [.start 0 0, .end_ 0 0 []] =
      some ([TransactionStatus.completed 0 0 []], some 0) ∧
    ¬ (0 < pointReadTimestamp (some 0)) := by
  constructor
  · rfl
  · decide

theorem ingestStep_max {st st' : List TransactionStatus × Option Nat}
    {rec : TransactionOutput} (h : ingestStep st rec = some st') :
    st'.2 = updMax st.2 rec.timestamp := by
  obtain ⟨res, m⟩ := st
  cases rec with
  | start idx s =>
    cases hg : res[idx]? with
    | none => simp [ingestStep, hg] at h
    | some cur =>
      cases cur with
      | neverRan =>
        simp only [ingestStep, hg, Option.some.injEq] at h
        subst h
        rfl
      | crashed s0 => simp [ingestStep, hg] at h
      | completed s0 e0 g0 => simp [ingestStep, hg] at h
  | end_ idx e grs =>
    cases hg : res[idx]? with
    | none => simp [ingestStep, hg] at h
    | some cur =>
      cases cur with
      | neverRan => simp [ingestStep, hg] at h
      | crashed s0 =>
        by_cases hlt : e < s0
        · simp [ingestStep, hg, hlt] at h
        · simp only [ingestStep, hg, if_neg hlt, Option.some.injEq] at h
          subst h
          rfl
      | completed s0 e0 g0 => simp [ingestStep, hg] at h

theorem foldlM_ingest_max :
    ∀ (recs : List TransactionOutput) (st st' : List TransactionStatus × Option Nat),
      List.foldlM ingestStep st recs = some st' →
      st'.2 = recs.foldl (fun acc r => updMax acc r.timestamp) st.2 := by
  intro recs
  induction recs with
  | nil =>
    intro st st' h
    simp at h
    subst h
    rfl
  | cons r rs ih =>
    intro st st' h
    rw [List.foldlM_cons] at h
    cases hs : ingestStep st r with
    | none => rw [hs] at h; exact absurd h (by simp)
    | some st1 =>
      rw [hs] at h
      rw [List.foldl_cons, ← ingestStep_max hs]
      exact ih st1 st' h

theorem ingest_max_eq {n : Nat} {recs : List TransactionOutput}
    {res : List TransactionStatus} {m : Option Nat}
    (h : ingest n recs = some (res, m)) : m = maxTimestampOf recs :=
  foldlM_ingest_max recs _ (res, m) h

/-- C3 (amended). The synthetic point-read transaction has `start = end`,
both equal to `floor(max × 11 / 10)` computed in `u128` (`max × 11 mod 2¹²⁸`
then integer division by 10) over the maximum timestamp observed across all
Start/End records, or 0 if no timestamp was observed — the floor, not the
ceiling, of `1.1 × max`. -/
theorem pointReadStatus_spec {n : Nat} {recs : List TransactionOutput}
    {res : List TransactionStatus} {m : Option Nat}
    (h : ingest n recs = some (res, m)) (grs : List (Option (List Nat))) :
    ∃ t, pointReadStatus m grs = .completed t t grs ∧
      t = (maxTimestampOf recs).getD 0 * 11 % 2 ^ 128 / 10 ∧
      (maxTimestampOf recs = none → t = 0) := by
  have hm : m = maxTimestampOf recs := ingest_max_eq h
  refine ⟨pointReadTimestamp m, rfl, ?_, ?_⟩
  · rw [hm]; rfl
  · intro h0
    rw [hm, h0]
    rfl

/-- Witness for C3 (amended): the trace `Start(0,4)` gives max 4 and
synthetic timestamp `4 × 11 / 10 = 4`. -/
theorem pointReadStatus_spec_witness :
    ∃ t, pointReadStatus (some 4) [] = .completed t t [] ∧
      t = (maxTimestampOf [.start 0 4]).getD 0 * 11 % 2 ^ 128 / 10 ∧
      (maxTimestampOf [.start 0 4] = none → t = 0) :=
  @pointReadStatus_spec 1 [.start 0 4] [TransactionStatus.crashed 4] (some 4) rfl []

/-- Counterexample to C3 as stated: with maximum observed timestamp 1 the
code computes `1 × 11 / 10 = 1`, while `ceil(1.1 × 1) = 2`; the synthetic
transaction's timestamps are the floor, not the ceiling. -/
theorem pointReadStatus_not_ceil_counterexample :
    ingest 1 [.start 0 1] = some ([TransactionStatus.crashed 1], some 1) ∧
    pointReadStatus (some 1) [] = .completed 1 1 [] ∧
    ceilTimestamp 1 = 2 ∧ (1 : Nat) ≠ 2 := by
  refine ⟨rfl, ?_, rfl, by decide⟩
  rfl

/-! ## `check_history`: the GNF construction (claims C4, C6, C7, C10, C8) -/

/-- Result of a `check_history` phase: `panic` models a Rust panic
(`unreachable!`, a failed `unwrap`, out-of-range indexing, or rewrite-fuel
exhaustion), `fail` models an early `return false`, `ok` carries the GNF
built so far. The final `run_monosat` call on the emitted GNF is external
process I/O and is not modelled; `ok g` means the checker reaches the DIMACS
emission with GNF `g`. -/
inductive CRes where
  | panic : CRes
  | fail : CRes
  | ok (g : Gnf) : CRes
deriving DecidableEq, Repr

/-- One history entry. -/
abbrev Tx := TransactionSpec × TransactionStatus

/-- Placeholder used by `getD`; every index reached by `check_history`'s
loops is in range, so it is never observed. -/
def txDefault : Tx := (⟨[]⟩, .neverRan)

/-- `(0..transactions.len()).map(|_| gnf.add_node())`. -/
def addNodes : Nat → Gnf → List Nat × Gnf
  | 0, g => ([], g)
  | n + 1, g =>
    let (node, g1) := g.add_node
    let (rest, g2) := addNodes n g1
    (node :: rest, g2)

/-- All ordered index pairs `(i1, i2)` in the row-major order of the nested
`for` loops of the realtime pass. -/
def allPairs (n : Nat) : List (Nat × Nat) :=
  (List.range n).flatMap fun i => (List.range n).map fun j => (i, j)

/-- The status of transaction `i`. -/
def statusAt (txs : List Tx) (i : Nat) : TransactionStatus := (txs.getD i txDefault).2

/-- Does the ordered pair get a realtime edge? Both transactions Completed
and `start_2 > end_1`. -/
def rtQualifies (txs : List Tx) (p : Nat × Nat) : Bool :=
  match statusAt txs p.1, statusAt txs p.2 with
  | .completed _ e1 _, .completed s2 _ _ => e1 < s2
  | _, _ => false

/-- The body of the realtime double loop: for a qualifying pair, allocate a
fresh variable, assert it with a unit clause, and add the edge. -/
def rtStep (txs : List Tx) (nodes : List Nat) (g : Gnf) (p : Nat × Nat) : Gnf :=
  if rtQualifies txs p then
    let (v, g1) := g.add_variable
    let g2 := g1.add_clause [Literal.pos v]
    g2.add_edge (nodes.getD p.1 0) (nodes.getD p.2 0) v
  else g

/-- The whole realtime pass of `check_history`. -/
def addRealtime (txs : List Tx) (nodes : List Nat) (g : Gnf) : Gnf :=
  (allPairs txs.length).foldl (rtStep txs nodes) g

/-- `struct KeyAccess { transaction_idx, value }`. -/
structure KeyAccess where
  transaction_idx : Nat
  value : Option (List Nat)
deriving DecidableEq, Repr

/-- `key_to_tx_op[k]`: the `(tx_idx, op_idx)` pairs whose operation names
key `k`, in enumeration order. -/
def txOpsFor (txs : List Tx) (k : List Nat) : List (Nat × Nat) :=
  (List.range txs.length).flatMap fun ti =>
    (List.range ((txs.getD ti txDefault).1.ops).length).filterMap fun oi =>
      if ((txs.getD ti txDefault).1.ops.getD oi (.get [])).key = k then some (ti, oi)
      else none

/-- The reads/writes collection loop for one key: `Get` in a Completed
transaction contributes a read (indexing `get_results[op_idx]`, whose
out-of-range panic is `none`); `Get` in `NeverRan`/`Crashed` contributes
nothing; `Insert`/`Remove` contribute writes regardless of status. -/
def collectGo (txs : List Tx) :
    List (Nat × Nat) → List KeyAccess → List KeyAccess →
    Option (List KeyAccess × List KeyAccess)
  | [], ws, rs => some (ws, rs)
  | (ti, oi) :: rest, ws, rs =>
    match (txs.getD ti txDefault).1.ops.getD oi (.get []) with
    | .get _ =>
      match (txs.getD ti txDefault).2 with
      | .neverRan => collectGo txs rest ws rs
      | .crashed _ => collectGo txs rest ws rs
      | .completed _ _ grs =>
        match grs[oi]? with
        | none => none
        | some v => collectGo txs rest ws (rs ++ [⟨ti, v⟩])
    | .insert _ value => collectGo txs rest (ws ++ [⟨ti, some value⟩]) rs
    | .remove _ => collectGo txs rest (ws ++ [⟨ti, none⟩]) rs

/-- Writes and reads for one key (`(writes, reads)`). -/
def collectAccesses (txs : List Tx) (k : List Nat) :
    Option (List KeyAccess × List KeyAccess) :=
  collectGo txs (txOpsFor txs k) [] []

/-- Lexicographic order on byte-string keys (the `Ord` of `Vec<u8>`). -/
def keyLt : List Nat → List Nat → Bool
  | [], [] => false
  | [], _ :: _ => true
  | _ :: _, [] => false
  | x :: xs, y :: ys => if x < y then true else if x = y then keyLt xs ys else false

/-- Insert a key into an ascending duplicate-free key list (one `BTreeMap`
entry creation). -/
def insertKey (k : List Nat) : List (List Nat) → List (List Nat)
  | [] => [k]
  | h :: t =>
    if keyLt k h then k :: h :: t else if k = h then h :: t else h :: insertKey k t

/-- The distinct keys named by any operation, in the ascending order the
`BTreeMap` iterates them. -/
def sortedKeys (txs : List Tx) : List (List Nat) :=
  (txs.flatMap fun t => t.1.ops.map Operation.key).foldl (fun acc k => insertKey k acc) []

/-- The `(1, _)` arm's body for one read: the four value cases of the match
on `(write_value, read_value)`; `none` is `return false`. -/
def oneWriteRead (nodes : List Nat) (w r : KeyAccess) (g : Gnf) : Option Gnf :=
  match w.value, r.value with
  | none, none => some g
  | none, some _ => none
  | some _, none =>
    let (v, g1) := g.add_variable
    let g2 := g1.add_clause [Literal.pos v]
    some (g2.add_edge (nodes.getD r.transaction_idx 0) (nodes.getD w.transaction_idx 0) v)
  | some wv, some rv =>
    if wv ≠ rv then none
    else
      let (v, g1) := g.add_variable
      let g2 := g1.add_clause [Literal.pos v]
      some (g2.add_edge (nodes.getD w.transaction_idx 0) (nodes.getD r.transaction_idx 0) v)

/-- The `(1, _)` arm: fold `oneWriteRead` over the reads. -/
def oneWriteReads (nodes : List Nat) (w : KeyAccess) :
    List KeyAccess → Gnf → CRes
  | [], g => .ok g
  | r :: rest, g =>
    match oneWriteRead nodes w r g with
    | none => .fail
    | some g1 => oneWriteReads nodes w rest g1

/-- `matching_write_tx_ids`: transaction ids of the writes whose value equals
the read's observed value. -/
def matchingWrites (writes : List KeyAccess) (rv : Option (List Nat)) : List Nat :=
  writes.filterMap fun w => if rv = w.value then some w.transaction_idx else none

/-- The skip condition for one slot:
`matching_write_tx_ids.len() == 1 && *write_tx_id == matching_write_tx_ids[0]
&& read_value.is_some()`. -/
def slotSkip (matching : List Nat) (rv : Option (List Nat)) (w : KeyAccess) : Bool :=
  match matching with
  | [mtx] => decide (w.transaction_idx = mtx) && rv.isSome
  | _ => false

/-- Pre-generate the `read_to_write_antidep_edges` slots: one per write, in
write order; the slot is `None` exactly when `slotSkip` holds (a single
matching write, this write's transaction is that match, and the read
observed a value); otherwise allocate a variable and add the `R → W`
anti-dependency edge immediately. -/
def mkSlots (nodes : List Nat) (matching : List Nat) (rv : Option (List Nat))
    (rTx : Nat) : List KeyAccess → Gnf → List (Option Nat) × Gnf
  | [], g => ([], g)
  | w :: ws, g =>
    match slotSkip matching rv w with
    | true =>
      let (rest, g1) := mkSlots nodes matching rv rTx ws g
      (none :: rest, g1)
    | false =>
      let (v, g1) := g.add_variable
      let g2 := g1.add_edge (nodes.getD rTx 0) (nodes.getD w.transaction_idx 0) v
      let (rest, g3) := mkSlots nodes matching rv rTx ws g2
      (some v :: rest, g3)

/-- For one matching write `mtx`: the conjunction arguments after the `W→R`
dependency literal — for every other write, a fresh `W→W` anti-dependency
edge disjoined with that write's pre-generated slot (whose `unwrap` is
`none` on a `None` slot). Writes in the same transaction as `mtx` are
skipped (`continue`). -/
def mkConjArgs (nodes : List Nat) (mtx rTx : Nat) :
    List (KeyAccess × Option Nat) → Gnf → Option (List Expression × Gnf)
  | [], g => some ([], g)
  | (w, slot) :: rest, g =>
    if w.transaction_idx = mtx then mkConjArgs nodes mtx rTx rest g
    else
      match slot with
      | none => none
      | some sv =>
        let (v, g1) := g.add_variable
        let g2 := g1.add_edge (nodes.getD w.transaction_idx 0) (nodes.getD mtx 0) v
        match mkConjArgs nodes mtx rTx rest g2 with
        | none => none
        | some (es, g3) =>
          some (Expression.disj [.lit (.pos v), .lit (.pos sv)] :: es, g3)

/-- One disjunct per matching write: allocate the `W→R` dependency edge,
then build the conjunction `[dep] ++ mkConjArgs`. -/
def mkDisjuncts (nodes : List Nat) (writes : List KeyAccess) (slots : List (Option Nat))
    (rTx : Nat) : List Nat → Gnf → Option (List Expression × Gnf)
  | [], g => some ([], g)
  | mtx :: ms, g =>
    let (depVar, g1) := g.add_variable
    let g2 := g1.add_edge (nodes.getD mtx 0) (nodes.getD rTx 0) depVar
    match mkConjArgs nodes mtx rTx (writes.zip slots) g2 with
    | none => none
    | some (cargs, g3) =>
      match mkDisjuncts nodes writes slots rTx ms g3 with
      | none => none
      | some (ds, g4) =>
        some (Expression.conj (.lit (.pos depVar) :: cargs) :: ds, g4)

/-- Build the whole per-read formula of the multiple-writes arm: slots, one
disjunct per matching write, and — when the read observed nothing — the
extra disjunct conjoining every slot (each `unwrap`ped). `none` means some
`unwrap` panicked. -/
def buildReadFormula (nodes : List Nat) (writes : List KeyAccess) (r : KeyAccess)
    (g : Gnf) : Option (Expression × Gnf) :=
  let matching := matchingWrites writes r.value
  let (slots, g1) := mkSlots nodes matching r.value r.transaction_idx writes g
  match mkDisjuncts nodes writes slots r.transaction_idx matching g1 with
  | none => none
  | some (dArgs, g2) =>
    if r.value.isNone then
      match mapOption (fun s => s.map (fun v => Expression.lit (.pos v))) slots with
      | none => none
      | some lits => some (.disj (dArgs ++ [.conj lits]), g2)
    else some (.disj dArgs, g2)

/-- The `(>1, _)` arm's body for one read: fail early when a value was read
that no write produced, otherwise build the formula, convert it to CNF and
append the clause group. -/
def multiWriteRead (fuel : Nat) (nodes : List Nat) (writes : List KeyAccess)
    (r : KeyAccess) (g : Gnf) : CRes :=
  if r.value.isSome ∧ matchingWrites writes r.value = [] then .fail
  else
    match buildReadFormula nodes writes r g with
    | none => .panic
    | some (expr, g1) =>
      match Expression.to_cnf fuel expr with
      | none => .panic
      | some cs => .ok (g1.add_clauses cs)

/-- The `(>1, _)` arm: fold `multiWriteRead` over the reads. -/
def multiWriteReads (fuel : Nat) (nodes : List Nat) (writes : List KeyAccess) :
    List KeyAccess → Gnf → CRes
  | [], g => .ok g
  | r :: rest, g =>
    match multiWriteRead fuel nodes writes r g with
    | .ok g1 => multiWriteReads fuel nodes writes rest g1
    | res => res

/-- Process one key group: collect accesses, then the
`match (writes.len(), reads.len())` arms of `check_history`. -/
def perKeyStep (fuel : Nat) (txs : List Tx) (nodes : List Nat) (g : Gnf)
    (k : List Nat) : CRes :=
  match collectAccesses txs k with
  | none => .panic
  | some (writes, reads) =>
    match writes, reads with
    | [], [] => .panic
    | _ :: _, [] => .ok g
    | [], r0 :: rtl =>
      if (r0 :: rtl).all (fun r => r.value.isNone) then .ok g else .fail
    | [w], r0 :: rtl => oneWriteReads nodes w (r0 :: rtl) g
    | w0 :: w1 :: wtl, r0 :: rtl =>
      multiWriteReads fuel nodes (w0 :: w1 :: wtl) (r0 :: rtl) g

/-- Iterate the key groups in `BTreeMap` order. -/
def perKeys (fuel : Nat) (txs : List Tx) (nodes : List Nat) :
    List (List Nat) → Gnf → CRes
  | [], g => .ok g
  | k :: ks, g =>
    match perKeyStep fuel txs nodes g k with
    | .ok g1 => perKeys fuel txs nodes ks g1
    | res => res

/-- `check_history` up to the DIMACS emission: the acyclicity unit clause,
one node per transaction, the realtime pass, then every key group. -/
def check_history (fuel : Nat) (txs : List Tx) : CRes :=
  let g0 := Gnf.new.add_clause [Literal.pos Gnf.new.acyclic_variable]
  let (nodes, g1) := addNodes txs.length g0
  let g2 := addRealtime txs nodes g1
  perKeys fuel txs nodes (sortedKeys txs) g2

/-- `Gnf::to_dimacs`, modelled at line granularity: the `p cnf` header, a
comment line and the clause lines for each meta-clause group, the `digraph`
line, a comment line and an `edge` line per edge, and the `acyclic` line.
(The text rendering of each line is injective from this representation;
comment text is diagnostic only and not modelled.) -/
inductive DimacsLine where
  | header (nVars nClauses : Nat)
  | comment
  | clauseLine (lits : List Literal)
  | digraphLine (nNodes nEdges : Nat)
  | edgeLine (src dst v : Nat)
  | acyclicLine (v : Nat)
deriving DecidableEq, Repr

def Gnf.to_dimacs (g : Gnf) : List DimacsLine :=
  [DimacsLine.header g.n_variables (g.meta_clauses.map List.length).sum]
    ++ (g.meta_clauses.flatMap fun grp => DimacsLine.comment :: grp.map DimacsLine.clauseLine)
    ++ [DimacsLine.digraphLine g.n_nodes g.edges.length]
    ++ (g.edges.flatMap fun e => [DimacsLine.comment, DimacsLine.edgeLine e.src e.dst e.var])
    ++ [DimacsLine.acyclicLine g.acyclic_variable]

/-- The variable indices referenced by one line (clause, edge and acyclic
lines reference variables; headers and comments do not). -/
def lineVars : DimacsLine → List Nat
  | .clauseLine lits => lits.map Literal.var
  | .edgeLine _ _ v => [v]
  | .acyclicLine v => [v]
  | _ => []

/-- The maximum variable index referenced anywhere in the document. -/
def maxVarReferenced (ls : List DimacsLine) : Nat :=
  (ls.flatMap lineVars).foldl max 0

def isClauseLine : DimacsLine → Bool
  | .clauseLine _ => true
  | _ => false

/-- The number of emitted clause lines. -/
def countClauseLines (ls : List DimacsLine) : Nat := (ls.filter isClauseLine).length

/-! ## C4: the realtime pass, characterised -/

/-- The unit clauses the realtime pass appends: one per qualifying pair, each
asserting the freshly allocated variable `base+1, base+2, …`. -/
def rtNewClauses (base : Nat) : List (Nat × Nat) → List (List Clause)
  | [] => []
  | _ :: q => [[Literal.pos (base + 1)]] :: rtNewClauses (base + 1) q

/-- The edges the realtime pass appends: one per qualifying pair `(i, j)`,
from node `i` to node `j`, carrying the same fresh variable. -/
def rtNewEdges (nodes : List Nat) (base : Nat) : List (Nat × Nat) → List EdgeR
  | [] => []
  | p :: q => ⟨nodes.getD p.1 0, nodes.getD p.2 0, base + 1⟩ :: rtNewEdges nodes (base + 1) q

theorem rt_fold_spec (txs : List Tx) (nodes : List Nat) :
    ∀ (ps : List (Nat × Nat)) (g : Gnf),
      ps.foldl (rtStep txs nodes) g =
        { g with
          n_variables := g.n_variables + (ps.filter (rtQualifies txs)).length,
          meta_clauses :=
            g.meta_clauses ++ rtNewClauses g.n_variables (ps.filter (rtQualifies txs)),
          edges := g.edges ++ rtNewEdges nodes g.n_variables (ps.filter (rtQualifies txs)) } := by
  intro ps
  induction ps with
  | nil => intro g; simp [rtNewClauses, rtNewEdges]
  | cons p ps ih =>
    intro g
    rw [List.foldl_cons]
    by_cases hq : rtQualifies txs p = true
    · have hstep : rtStep txs nodes g p =
          Gnf.add_edge (Gnf.add_clause { g with n_variables := g.n_variables + 1 }
            [Literal.pos (g.n_variables + 1)]) (nodes.getD p.1 0) (nodes.getD p.2 0)
            (g.n_variables + 1) := by
        simp [rtStep, hq, Gnf.add_variable]
      rw [hstep, ih]
      simp only [List.filter_cons, hq, if_pos, rtNewClauses, rtNewEdges]
      simp [Gnf.add_edge, Gnf.add_clause, Gnf.mk.injEq, List.append_assoc]
      all_goals omega
    · have hstep : rtStep txs nodes g p = g := by
        simp [rtStep, hq]
      rw [hstep, ih]
      simp only [List.filter_cons]
      rw [if_neg (by simpa using hq)]

/-- C4. The realtime pass of `check_history` adds, for every ordered pair
`(Ti, Tj)` of Completed transactions with `Tj.start > Ti.end`, exactly one
fresh variable, one unit clause asserting it, and one edge from `Ti`'s node
to `Tj`'s node — and nothing else; a pair qualifies exactly when both
transactions are Completed with `Ti.end < Tj.start`, so `NeverRan` and
`Crashed` transactions contribute no realtime edges. -/
theorem addRealtime_spec (txs : List Tx) (nodes : List Nat) (g : Gnf) :
    (addRealtime txs nodes g =
      { g with
        n_variables :=
          g.n_variables + ((allPairs txs.length).filter (rtQualifies txs)).length,
        meta_clauses := g.meta_clauses ++
          rtNewClauses g.n_variables ((allPairs txs.length).filter (rtQualifies txs)),
        edges := g.edges ++
          rtNewEdges nodes g.n_variables ((allPairs txs.length).filter (rtQualifies txs)) }) ∧
    (∀ p : Nat × Nat, rtQualifies txs p = true ↔
      ∃ s1 e1 g1 s2 e2 g2, statusAt txs p.1 = .completed s1 e1 g1 ∧
        statusAt txs p.2 = .completed s2 e2 g2 ∧ e1 < s2) := by
  constructor
  · exact rt_fold_spec txs nodes (allPairs txs.length) g
  · intro p
    constructor
    · intro hq
      unfold rtQualifies at hq
      cases h1 : statusAt txs p.1 <;> rw [h1] at hq <;>
        cases h2 : statusAt txs p.2 <;> rw [h2] at hq <;> simp at hq
      exact ⟨_, _, _, _, _, _, rfl, rfl, hq⟩
    · rintro ⟨s1, e1, g1, s2, e2, g2, h1, h2, hlt⟩
      unfold rtQualifies
      rw [h1, h2]
      simpa using hlt

/-- C6. In the single-write arm of `check_history`, for the sole write `W`
and each read `R`: a Remove (`W = None`) with `R = None` adds nothing; a
Remove with `R = Some` returns false; an Insert (`W = Some`) with `R = None`
adds exactly one fresh unit-asserted anti-dependency edge from `R`'s node to
`W`'s node; an Insert of `v` read back as `Some v` adds exactly one fresh
unit-asserted read-dependency edge from `W`'s node to `R`'s node; a value
mismatch returns false. The final conjunct ties the arm to `check_history`'s
per-key dispatch. -/
theorem oneWriteRead_cases (nodes : List Nat) (w r : KeyAccess) (g : Gnf) :
    (w.value = none → r.value = none → oneWriteRead nodes w r g = some g) ∧
    (∀ rv, w.value = none → r.value = some rv → oneWriteRead nodes w r g = none) ∧
    (∀ wv, w.value = some wv → r.value = none →
      oneWriteRead nodes w r g = some
        (Gnf.add_edge (Gnf.add_clause { g with n_variables := g.n_variables + 1 }
            [Literal.pos (g.n_variables + 1)])
          (nodes.getD r.transaction_idx 0) (nodes.getD w.transaction_idx 0)
          (g.n_variables + 1))) ∧
    (∀ wv, w.value = some wv → r.value = some wv →
      oneWriteRead nodes w r g = some
        (Gnf.add_edge (Gnf.add_clause { g with n_variables := g.n_variables + 1 }
            [Literal.pos (g.n_variables + 1)])
          (nodes.getD w.transaction_idx 0) (nodes.getD r.transaction_idx 0)
          (g.n_variables + 1))) ∧
    (∀ wv rv, w.value = some wv → r.value = some rv → wv ≠ rv →
      oneWriteRead nodes w r g = none) ∧
    (∀ fuel txs k rtl, collectAccesses txs k = some ([w], r :: rtl) →
      perKeyStep fuel txs nodes g k = oneWriteReads nodes w (r :: rtl) g) := by
  refine ⟨?_, ?_, ?_, ?_, ?_, ?_⟩
  · intro h1 h2; simp [oneWriteRead, h1, h2]
  · intro rv h1 h2; simp [oneWriteRead, h1, h2]
  · intro wv h1 h2
    simp [oneWriteRead, h1, h2, Gnf.add_variable]
  · intro wv h1 h2
    simp [oneWriteRead, h1, h2, Gnf.add_variable]
  · intro wv rv h1 h2 hne
    simp [oneWriteRead, h1, h2, hne]
  · intro fuel txs k rtl hcol
    simp [perKeyStep, hcol]

/-- Witness for C6: an Insert of byte string `[7]` by transaction 0 read
back as absent by transaction 1 yields the single anti-dependency edge
`node 1 → node 0` with fresh variable 2, unit-asserted. -/
theorem oneWriteRead_cases_witness :
    oneWriteRead [0, 1] ⟨0, some [7]⟩ ⟨1, none⟩ Gnf.new =
      some { n_variables := 2, meta_clauses := [[[Literal.pos 2]]], n_nodes := 0,
             edges := [⟨1, 0, 2⟩] } :=
  (oneWriteRead_cases [0, 1] ⟨0, some [7]⟩ ⟨1, none⟩ Gnf.new).2.2.1 [7] rfl rfl

/-! ## C7: no key group is empty when every named key has a Completed read -/

/-- Does some Completed transaction issue a `Get` on key `k`? (The synthetic
point-read transaction guarantees this for every key named by any spec.) -/
def hasCompletedGet (txs : List Tx) (k : List Nat) : Bool :=
  (List.range txs.length).any fun ti =>
    match (txs.getD ti txDefault).2 with
    | .completed _ _ _ =>
      (List.range ((txs.getD ti txDefault).1.ops).length).any fun oi =>
        (txs.getD ti txDefault).1.ops.getD oi (.get []) = Operation.get k
    | _ => false

theorem collectGo_reads_prefix (txs : List Tx) :
    ∀ (l : List (Nat × Nat)) (ws rs ws' rs' : List KeyAccess),
      collectGo txs l ws rs = some (ws', rs') → ∃ t, rs' = rs ++ t := by
  intro l
  induction l with
  | nil =>
    intro ws rs ws' rs' h
    simp [collectGo] at h
    exact ⟨[], by simp [h.2]⟩
  | cons p rest ih =>
    intro ws rs ws' rs' h
    obtain ⟨ti, oi⟩ := p
    rw [collectGo] at h
    cases hop : (txs.getD ti txDefault).1.ops.getD oi (.get []) with
    | get k0 =>
      simp only [hop] at h
      cases hst : (txs.getD ti txDefault).2 with
      | neverRan => simp only [hst] at h; exact ih _ _ _ _ h
      | crashed s0 => simp only [hst] at h; exact ih _ _ _ _ h
      | completed s0 e0 grs =>
        simp only [hst] at h
        cases hg : grs[oi]? with
        | none => simp only [hg] at h; exact absurd h (by simp)
        | some v =>
          simp only [hg] at h
          obtain ⟨t, ht⟩ := ih _ _ _ _ h
          exact ⟨⟨ti, v⟩ :: t, by simp [ht]⟩
    | insert k0 v0 =>
      simp only [hop] at h
      exact ih _ _ _ _ h
    | remove k0 =>
      simp only [hop] at h
      exact ih _ _ _ _ h

theorem collectGo_reads_nonempty (txs : List Tx) :
    ∀ (l : List (Nat × Nat)) (ws rs ws' rs' : List KeyAccess) (ti oi : Nat),
      collectGo txs l ws rs = some (ws', rs') → (ti, oi) ∈ l →
      (∃ k0, (txs.getD ti txDefault).1.ops.getD oi (.get []) = Operation.get k0) →
      (∃ s e grs, (txs.getD ti txDefault).2 = .completed s e grs) →
      rs' ≠ [] := by
  intro l
  induction l with
  | nil => intro ws rs ws' rs' ti oi h hmem; simp at hmem
  | cons p rest ih =>
    intro ws rs ws' rs' ti oi h hmem hget hcomp
    rcases List.mem_cons.mp hmem with rfl | htail
    · obtain ⟨k0, hop⟩ := hget
      obtain ⟨s0, e0, grs, hst⟩ := hcomp
      rw [collectGo] at h
      simp only [hop, hst] at h
      cases hg : grs[oi]? with
      | none => simp only [hg] at h; exact absurd h (by simp)
      | some v =>
        simp only [hg] at h
        obtain ⟨t, ht⟩ := collectGo_reads_prefix txs _ _ _ _ _ h
        rw [ht]
        simp
    · obtain ⟨ti', oi'⟩ := p
      rw [collectGo] at h
      cases hop : (txs.getD ti' txDefault).1.ops.getD oi' (.get []) with
      | get k0 =>
        simp only [hop] at h
        cases hst : (txs.getD ti' txDefault).2 with
        | neverRan => simp only [hst] at h; exact ih _ _ _ _ _ _ h htail hget hcomp
        | crashed s0 => simp only [hst] at h; exact ih _ _ _ _ _ _ h htail hget hcomp
        | completed s0 e0 grs =>
          simp only [hst] at h
          cases hg : grs[oi']? with
          | none => simp only [hg] at h; exact absurd h (by simp)
          | some v =>
            simp only [hg] at h
            exact ih _ _ _ _ _ _ h htail hget hcomp
      | insert k0 v0 =>
        simp only [hop] at h
        exact ih _ _ _ _ _ _ h htail hget hcomp
      | remove k0 =>
        simp only [hop] at h
        exact ih _ _ _ _ _ _ h htail hget hcomp

theorem mem_txOpsFor {txs : List Tx} {k : List Nat} {ti oi : Nat}
    (hti : ti < txs.length) (hoi : oi < ((txs.getD ti txDefault).1.ops).length)
    (hkey : ((txs.getD ti txDefault).1.ops.getD oi (.get [])).key = k) :
    (ti, oi) ∈ txOpsFor txs k := by
  unfold txOpsFor
  rw [List.mem_flatMap]
  refine ⟨ti, List.mem_range.mpr hti, ?_⟩
  rw [List.mem_filterMap]
  exact ⟨oi, List.mem_range.mpr hoi, by rw [if_pos hkey]⟩

/-- C7. If every key named by any operation is read (`Get`) by some
Completed transaction — as the synthetic point-read transaction guarantees —
then no per-key group of `check_history` collects zero writes and zero
reads, so the `unreachable!` arm for `(0, 0)` is never executed. -/
theorem no_empty_key_group (txs : List Tx)
    (hall : ∀ k ∈ sortedKeys txs, hasCompletedGet txs k = true) :
    ∀ k ∈ sortedKeys txs, collectAccesses txs k ≠ some ([], []) := by
  intro k hk hcol
  have hg := hall k hk
  rw [hasCompletedGet, List.any_eq_true] at hg
  obtain ⟨ti, hti, hmatch⟩ := hg
  rw [List.mem_range] at hti
  cases hst : (txs.getD ti txDefault).2 with
  | neverRan => rw [hst] at hmatch; simp at hmatch
  | crashed s0 => rw [hst] at hmatch; simp at hmatch
  | completed s0 e0 grs =>
    rw [hst] at hmatch
    simp only [List.any_eq_true] at hmatch
    obtain ⟨oi, hoi, hop⟩ := hmatch
    rw [List.mem_range] at hoi
    rw [decide_eq_true_eq] at hop
    have hmem : (ti, oi) ∈ txOpsFor txs k :=
      mem_txOpsFor hti hoi (by rw [hop]; rfl)
    exact collectGo_reads_nonempty txs _ _ _ _ _ ti oi hcol hmem
      ⟨k, hop⟩ ⟨s0, e0, grs, hst⟩ rfl

/-- Witness for C7: an Insert by transaction 0 whose key is point-read by
Completed transaction 1. -/
theorem no_empty_key_group_witness :
    (∀ k ∈ sortedKeys
        [((⟨[.insert [0] [1]]⟩ : TransactionSpec), TransactionStatus.completed 0 1 [none]),
         ((⟨[.get [0]]⟩ : TransactionSpec), TransactionStatus.completed 2 3 [some [1]])],
      hasCompletedGet
        [((⟨[.insert [0] [1]]⟩ : TransactionSpec), TransactionStatus.completed 0 1 [none]),
         ((⟨[.get [0]]⟩ : TransactionSpec), TransactionStatus.completed 2 3 [some [1]])] k = true) ∧
    collectAccesses
        [((⟨[.insert [0] [1]]⟩ : TransactionSpec), TransactionStatus.completed 0 1 [none]),
         ((⟨[.get [0]]⟩ : TransactionSpec), TransactionStatus.completed 2 3 [some [1]])] [0] ≠
      some ([], []) := by
  refine ⟨by decide, ?_⟩
  exact no_empty_key_group _ (by decide) [0] (by decide)

/-! ## C10: the slot `unwrap`s of the multiple-writes arm never panic -/

theorem slotSkip_true_iff {matching : List Nat} {rv : Option (List Nat)} {w : KeyAccess} :
    slotSkip matching rv w = true ↔
      (matching = [w.transaction_idx] ∧ rv.isSome = true) := by
  cases matching with
  | nil => simp [slotSkip]
  | cons m tl =>
    cases tl with
    | nil =>
      simp only [slotSkip, Bool.and_eq_true, decide_eq_true_eq]
      constructor
      · rintro ⟨rfl, hs⟩
        exact ⟨rfl, hs⟩
      · rintro ⟨hm, hs⟩
        simp only [List.cons.injEq, and_true] at hm
        subst hm
        exact ⟨rfl, hs⟩
    | cons m2 tl2 => simp [slotSkip]

theorem mkSlots_zip_none (nodes : List Nat) (matching : List Nat)
    (rv : Option (List Nat)) (rTx : Nat) :
    ∀ (ws : List KeyAccess) (g : Gnf),
      ∀ p ∈ ws.zip (mkSlots nodes matching rv rTx ws g).1,
        p.2 = none → matching = [p.1.transaction_idx] ∧ rv.isSome = true := by
  intro ws
  induction ws with
  | nil => intro g p hp; simp [mkSlots] at hp
  | cons w ws ih =>
    intro g p hp hnone
    cases hs : slotSkip matching rv w with
    | true =>
      simp only [mkSlots, hs] at hp
      rcases List.mem_cons.mp hp with rfl | htail
      · exact slotSkip_true_iff.mp hs
      · exact ih g p htail hnone
    | false =>
      simp only [mkSlots, hs] at hp
      rcases List.mem_cons.mp hp with rfl | htail
      · exact absurd hnone (by simp)
      · exact ih _ p htail hnone

theorem mkSlots_mem_none (nodes : List Nat) (matching : List Nat)
    (rv : Option (List Nat)) (rTx : Nat) :
    ∀ (ws : List KeyAccess) (g : Gnf),
      ∀ s ∈ (mkSlots nodes matching rv rTx ws g).1, s = none → rv.isSome = true := by
  intro ws
  induction ws with
  | nil => intro g s hs; simp [mkSlots] at hs
  | cons w ws ih =>
    intro g s hsmem hnone
    cases hs : slotSkip matching rv w with
    | true =>
      simp only [mkSlots, hs] at hsmem
      rcases List.mem_cons.mp hsmem with rfl | htail
      · exact (slotSkip_true_iff.mp hs).2
      · exact ih g s htail hnone
    | false =>
      simp only [mkSlots, hs] at hsmem
      rcases List.mem_cons.mp hsmem with rfl | htail
      · exact absurd hnone (by simp)
      · exact ih _ s htail hnone

theorem mkConjArgs_isSome (nodes : List Nat) (mtx rTx : Nat) :
    ∀ (pairs : List (KeyAccess × Option Nat)) (g : Gnf),
      (∀ p ∈ pairs, p.2 = none → p.1.transaction_idx = mtx) →
      (mkConjArgs nodes mtx rTx pairs g).isSome = true := by
  intro pairs
  induction pairs with
  | nil => intro g hp; rfl
  | cons p rest ih =>
    intro g hp
    obtain ⟨w, slot⟩ := p
    by_cases htx : w.transaction_idx = mtx
    · simp only [mkConjArgs, if_pos htx]
      exact ih g (fun q hq => hp q (List.mem_cons_of_mem _ hq))
    · simp only [mkConjArgs, if_neg htx]
      cases slot with
      | none => exact absurd (hp (w, none) (List.mem_cons_self _ _) rfl) htx
      | some sv =>
        have hrec := ih (Gnf.add_edge { g with n_variables := g.n_variables + 1 }
            (nodes.getD w.transaction_idx 0) (nodes.getD mtx 0) (g.n_variables + 1))
          (fun q hq => hp q (List.mem_cons_of_mem _ hq))
        cases hrc : mkConjArgs nodes mtx rTx rest
            (Gnf.add_edge { g with n_variables := g.n_variables + 1 }
              (nodes.getD w.transaction_idx 0) (nodes.getD mtx 0) (g.n_variables + 1)) with
        | none => rw [hrc] at hrec; exact absurd hrec (by simp)
        | some pr =>
          obtain ⟨es, g3⟩ := pr
          simp only [Gnf.add_variable, hrc]
          rfl

theorem mkDisjuncts_isSome (nodes : List Nat) (writes : List KeyAccess)
    (slots : List (Option Nat)) (rTx : Nat) :
    ∀ (matching : List Nat) (g : Gnf),
      (∀ mtx ∈ matching, ∀ p ∈ writes.zip slots, p.2 = none → p.1.transaction_idx = mtx) →
      (mkDisjuncts nodes writes slots rTx matching g).isSome = true := by
  intro matching
  induction matching with
  | nil => intro g hp; rfl
  | cons mtx ms ih =>
    intro g hp
    rw [mkDisjuncts]
    cases hrc : mkConjArgs nodes mtx rTx (writes.zip slots)
        (Gnf.add_edge { g with n_variables := g.n_variables + 1 }
          (nodes.getD mtx 0) (nodes.getD rTx 0) (g.n_variables + 1)) with
    | none =>
      have hc := mkConjArgs_isSome nodes mtx rTx (writes.zip slots)
        (Gnf.add_edge { g with n_variables := g.n_variables + 1 }
          (nodes.getD mtx 0) (nodes.getD rTx 0) (g.n_variables + 1))
        (fun p hpz => hp mtx (List.mem_cons_self _ _) p hpz)
      rw [hrc] at hc
      exact absurd hc (by simp)
    | some pr =>
      obtain ⟨cargs, g3⟩ := pr
      have hd := ih g3 (fun m hm p hpz => hp m (List.mem_cons_of_mem _ hm) p hpz)
      cases hrd : mkDisjuncts nodes writes slots rTx ms g3 with
      | none => rw [hrd] at hd; exact absurd hd (by simp)
      | some pr2 =>
        obtain ⟨ds, g4⟩ := pr2
        simp only [Gnf.add_variable, hrc, hrd]
        rfl

theorem mapOption_lit_isSome :
    ∀ slots : List (Option Nat), (∀ s ∈ slots, s ≠ none) →
      (mapOption (fun s => s.map (fun v => Expression.lit (.pos v))) slots).isSome = true := by
  intro slots
  induction slots with
  | nil => intro h; rfl
  | cons s rest ih =>
    intro h
    cases hs : s with
    | none => exact absurd hs (h s (List.mem_cons_self _ _))
    | some v =>
      have hrec := ih (fun q hq => h q (List.mem_cons_of_mem _ hq))
      cases hrc : mapOption (fun s => s.map (fun v => Expression.lit (.pos v))) rest with
      | none => rw [hrc] at hrec; exact absurd hrec (by simp)
      | some lits => simp [mapOption, hrc]

/-- C10. In the multiple-writes encoding: a pre-generated anti-dependency
slot is `None` only when the read observed a value, there is exactly one
matching write, and the slot belongs to that matching write's transaction;
and because the per-matching-write conjunctions skip the matching write's own
transaction and the extra all-slots disjunct is built only for an absent
read, every slot `unwrap` is applied to a `Some` — building the per-read
formula never panics. -/
theorem buildReadFormula_no_panic (nodes : List Nat) (writes : List KeyAccess)
    (r : KeyAccess) (g : Gnf) :
    (∀ p ∈ writes.zip (mkSlots nodes (matchingWrites writes r.value) r.value
        r.transaction_idx writes g).1,
      p.2 = none →
        matchingWrites writes r.value = [p.1.transaction_idx] ∧ r.value.isSome = true) ∧
    (buildReadFormula nodes writes r g).isSome = true := by
  constructor
  · exact mkSlots_zip_none nodes (matchingWrites writes r.value) r.value
      r.transaction_idx writes g
  · rw [buildReadFormula]
    cases hmk : mkSlots nodes (matchingWrites writes r.value) r.value
        r.transaction_idx writes g with
    | mk slots g1 =>
      have hzip := mkSlots_zip_none nodes (matchingWrites writes r.value) r.value
        r.transaction_idx writes g
      rw [hmk] at hzip
      have hdis := mkDisjuncts_isSome nodes writes slots r.transaction_idx
        (matchingWrites writes r.value) g1
        (fun mtx hm p hpz hnone => by
          obtain ⟨hsing, _⟩ := hzip p hpz hnone
          rw [hsing] at hm
          exact (List.mem_singleton.mp hm).symm)
      simp only [hmk]
      cases hrd : mkDisjuncts nodes writes slots r.transaction_idx
          (matchingWrites writes r.value) g1 with
      | none => rw [hrd] at hdis; exact absurd hdis (by simp)
      | some pr =>
        obtain ⟨dArgs, g2⟩ := pr
        cases hrv : r.value with
        | some v => simp [hrv]
        | none =>
          have hnn : ∀ s ∈ slots, s ≠ none := by
            intro s hsmem hnone
            have := mkSlots_mem_none nodes (matchingWrites writes r.value) r.value
              r.transaction_idx writes g
            rw [hmk] at this
            have hsome := this s hsmem hnone
            rw [hrv] at hsome
            simp at hsome
          have hmo := mapOption_lit_isSome slots hnn
          cases hmc : mapOption (fun s => s.map (fun v => Expression.lit (.pos v))) slots with
          | none => rw [hmc] at hmo; exact absurd hmo (by simp)
          | some lits => simp [hrv, hmc]

/-! ## C8: the DIMACS header counts -/

/-- Variable `v` is referenced by an edge or by a clause of the GNF. -/
def varReferenced (g : Gnf) (v : Nat) : Prop :=
  (∃ e ∈ g.edges, e.var = v) ∨ (∃ grp ∈ g.meta_clauses, ∃ c ∈ grp, ∃ l ∈ c, l.var = v)

/-- The construction invariant of `check_history`'s GNF: at least the
acyclicity variable is allocated, every edge and clause references only
allocated variables (indices in `[1, n_variables]`), and every allocated
variable other than the acyclicity variable is referenced by an edge or a
clause. -/
def GnfOk (g : Gnf) : Prop :=
  1 ≤ g.n_variables ∧
  (∀ e ∈ g.edges, 1 ≤ e.var ∧ e.var ≤ g.n_variables) ∧
  (∀ grp ∈ g.meta_clauses, ∀ c ∈ grp, ∀ l ∈ c, 1 ≤ l.var ∧ l.var ≤ g.n_variables) ∧
  (∀ v, 2 ≤ v → v ≤ g.n_variables → varReferenced g v)

/-- Extending a well-formed GNF with `k` new variables, edges and clause
groups that reference only indices up to the new counter — provided every
newly allocated index is referenced by one of the new edges or clauses —
preserves the invariant. -/
theorem gnfOk_extend {g : Gnf} (hok : GnfOk g) {k : Nat} {E : List EdgeR}
    {G : List (List Clause)}
    (hes : ∀ e ∈ E, 1 ≤ e.var ∧ e.var ≤ g.n_variables + k)
    (hgrps : ∀ grp ∈ G, ∀ c ∈ grp, ∀ l ∈ c, 1 ≤ l.var ∧ l.var ≤ g.n_variables + k)
    (hnew : ∀ v, g.n_variables < v → v ≤ g.n_variables + k →
      (∃ e ∈ E, e.var = v) ∨ (∃ grp ∈ G, ∃ c ∈ grp, ∃ l ∈ c, l.var = v)) :
    GnfOk { n_variables := g.n_variables + k,
            meta_clauses := g.meta_clauses ++ G,
            n_nodes := g.n_nodes,
            edges := g.edges ++ E } := by
  obtain ⟨h1, h2, h3, h4⟩ := hok
  refine ⟨?_, ?_, ?_, ?_⟩
  · show 1 ≤ g.n_variables + k
    omega
  · intro e he
    show 1 ≤ e.var ∧ e.var ≤ g.n_variables + k
    have he' : e ∈ g.edges ++ E := he
    rcases List.mem_append.mp he' with h | h
    · have := h2 e h
      exact ⟨this.1, by omega⟩
    · exact hes e h
  · intro grp hgrp c hc l hl
    show 1 ≤ l.var ∧ l.var ≤ g.n_variables + k
    have hgrp' : grp ∈ g.meta_clauses ++ G := hgrp
    rcases List.mem_append.mp hgrp' with h | h
    · have := h3 grp h c hc l hl
      exact ⟨this.1, by omega⟩
    · exact hgrps grp h c hc l hl
  · intro v hv2 hvle
    have hvle' : v ≤ g.n_variables + k := hvle
    by_cases hvold : v ≤ g.n_variables
    · rcases h4 v hv2 hvold with ⟨e, he, hev⟩ | ⟨grp, hgrp, c, hc, l, hl, hlv⟩
      · exact Or.inl ⟨e, List.mem_append.mpr (Or.inl he), hev⟩
      · exact Or.inr ⟨grp, List.mem_append.mpr (Or.inl hgrp), c, hc, l, hl, hlv⟩
    · rcases hnew v (by omega) hvle' with ⟨e, he, hev⟩ | ⟨grp, hgrp, c, hc, l, hl, hlv⟩
      · exact Or.inl ⟨e, List.mem_append.mpr (Or.inr he), hev⟩
      · exact Or.inr ⟨grp, List.mem_append.mpr (Or.inr hgrp), c, hc, l, hl, hlv⟩

theorem gnfOk_alloc_edge {g : Gnf} (hok : GnfOk g) (src dst : Nat) :
    GnfOk (Gnf.add_edge { g with n_variables := g.n_variables + 1 } src dst
      (g.n_variables + 1)) := by
  have h := gnfOk_extend hok (k := 1) (E := [⟨src, dst, g.n_variables + 1⟩]) (G := [])
    (by intro e he; simp at he; subst he; simp [Literal.var])
    (by intro grp hgrp; simp at hgrp)
    (by
      intro v hlt hle
      refine Or.inl ⟨⟨src, dst, g.n_variables + 1⟩, by simp, ?_⟩
      show g.n_variables + 1 = v
      omega)
  have hsame : (Gnf.add_edge { g with n_variables := g.n_variables + 1 } src dst
      (g.n_variables + 1)) =
      { n_variables := g.n_variables + 1,
        meta_clauses := g.meta_clauses ++ [],
        n_nodes := g.n_nodes,
        edges := g.edges ++ [⟨src, dst, g.n_variables + 1⟩] } := by
    simp [Gnf.add_edge]
  rw [hsame]
  exact h

theorem gnfOk_alloc_clause_edge {g : Gnf} (hok : GnfOk g) (src dst : Nat) :
    GnfOk (Gnf.add_edge (Gnf.add_clause { g with n_variables := g.n_variables + 1 }
        [Literal.pos (g.n_variables + 1)]) src dst (g.n_variables + 1)) := by
  have h := gnfOk_extend hok (k := 1) (E := [⟨src, dst, g.n_variables + 1⟩])
    (G := [[[Literal.pos (g.n_variables + 1)]]])
    (by intro e he; simp at he; subst he; simp [Literal.var])
    (by
      intro grp hgrp c hc l hl
      simp at hgrp
      subst hgrp
      simp at hc
      subst hc
      simp at hl
      subst hl
      simp [Literal.var])
    (by
      intro v hlt hle
      refine Or.inl ⟨⟨src, dst, g.n_variables + 1⟩, by simp, ?_⟩
      show g.n_variables + 1 = v
      omega)
  have hsame : (Gnf.add_edge (Gnf.add_clause { g with n_variables := g.n_variables + 1 }
        [Literal.pos (g.n_variables + 1)]) src dst (g.n_variables + 1)) =
      { n_variables := g.n_variables + 1,
        meta_clauses := g.meta_clauses ++ [[[Literal.pos (g.n_variables + 1)]]],
        n_nodes := g.n_nodes,
        edges := g.edges ++ [⟨src, dst, g.n_variables + 1⟩] } := by
    simp [Gnf.add_edge, Gnf.add_clause]
  rw [hsame]
  exact h

theorem gnfOk_add_clauses {g : Gnf} {cs : List Clause} (hok : GnfOk g)
    (hcs : ∀ c ∈ cs, ∀ l ∈ c, 1 ≤ l.var ∧ l.var ≤ g.n_variables) :
    GnfOk (g.add_clauses cs) := by
  have h := gnfOk_extend hok (k := 0) (E := []) (G := [cs])
    (by intro e he; simp at he)
    (by
      intro grp hgrp c hc l hl
      simp at hgrp
      subst hgrp
      have := hcs c hc l hl
      exact ⟨this.1, by omega⟩)
    (by intro v hlt hle; omega)
  have hsame : g.add_clauses cs =
      { n_variables := g.n_variables + 0,
        meta_clauses := g.meta_clauses ++ [cs],
        n_nodes := g.n_nodes,
        edges := g.edges ++ [] } := by
    simp [Gnf.add_clauses]
  rw [hsame]
  exact h

theorem addNodes_spec : ∀ (n : Nat) (g : Gnf),
    addNodes n g = ((List.range n).map (· + g.n_nodes), { g with n_nodes := g.n_nodes + n }) := by
  intro n
  induction n with
  | zero => intro g; simp [addNodes]
  | succ m ih =>
    intro g
    simp only [addNodes, Gnf.add_node, ih]
    simp only [Prod.mk.injEq]
    constructor
    · rw [List.range_succ_eq_map]
      simp only [List.map_cons, List.map_map, Function.comp_def, Nat.zero_add,
        List.cons.injEq, true_and]
      exact List.map_congr_left fun x _ => by omega
    · have hnn : g.n_nodes + 1 + m = g.n_nodes + (m + 1) := by omega
      rw [hnn]

theorem gnfOk_rtStep {txs : List Tx} {nodes : List Nat} {g : Gnf} (hok : GnfOk g)
    (p : Nat × Nat) : GnfOk (rtStep txs nodes g p) := by
  unfold rtStep
  by_cases hq : rtQualifies txs p = true
  · rw [if_pos hq]
    simp only [Gnf.add_variable]
    exact gnfOk_alloc_clause_edge hok _ _
  · rw [if_neg hq]
    exact hok

theorem gnfOk_addRealtime {txs : List Tx} {nodes : List Nat} {g : Gnf} (hok : GnfOk g) :
    GnfOk (addRealtime txs nodes g) := by
  unfold addRealtime
  generalize allPairs txs.length = ps
  induction ps generalizing g with
  | nil => exact hok
  | cons p ps ih =>
    rw [List.foldl_cons]
    exact ih (gnfOk_rtStep hok p)

theorem gnfOk_oneWriteRead {nodes : List Nat} {w r : KeyAccess} {g g' : Gnf}
    (hok : GnfOk g) (h : oneWriteRead nodes w r g = some g') : GnfOk g' := by
  unfold oneWriteRead at h
  cases hw : w.value with
  | none =>
    cases hr : r.value with
    | none =>
      simp only [hw, hr, Option.some.injEq] at h
      subst h
      exact hok
    | some rv =>
      simp only [hw, hr] at h
      exact Option.noConfusion h
  | some wv =>
    cases hr : r.value with
    | none =>
      simp only [hw, hr, Gnf.add_variable, Option.some.injEq] at h
      subst h
      exact gnfOk_alloc_clause_edge hok _ _
    | some rv =>
      simp only [hw, hr] at h
      split at h
      · exact absurd h (by simp)
      · simp only [Gnf.add_variable, Option.some.injEq] at h
        subst h
        exact gnfOk_alloc_clause_edge hok _ _

theorem gnfOk_oneWriteReads {nodes : List Nat} {w : KeyAccess} :
    ∀ {reads : List KeyAccess} {g g' : Gnf}, GnfOk g →
      oneWriteReads nodes w reads g = CRes.ok g' → GnfOk g' := by
  intro reads
  induction reads with
  | nil =>
    intro g g' hok h
    simp only [oneWriteReads] at h
    cases h
    exact hok
  | cons r rest ih =>
    intro g g' hok h
    rw [oneWriteReads] at h
    cases hone : oneWriteRead nodes w r g with
    | none => rw [hone] at h; exact absurd h (by simp)
    | some g1 =>
      rw [hone] at h
      exact ih (gnfOk_oneWriteRead hok hone) h

/-- Variable `v` occurs as some literal's variable inside the expression. -/
inductive VarInE : Nat → Expression → Prop where
  | lit (l : Literal) : VarInE l.var (.lit l)
  | conj {v : Nat} {es : List Expression} {e : Expression} :
      e ∈ es → VarInE v e → VarInE v (.conj es)
  | disj {v : Nat} {es : List Expression} {e : Expression} :
      e ∈ es → VarInE v e → VarInE v (.disj es)

theorem varInE_lit_iff {v : Nat} {l : Literal} : VarInE v (.lit l) ↔ v = l.var := by
  constructor
  · intro h
    cases h with
    | lit => rfl
  · intro h
    subst h
    exact VarInE.lit l

theorem varInE_conj_iff {v : Nat} {es : List Expression} :
    VarInE v (.conj es) ↔ ∃ e ∈ es, VarInE v e := by
  constructor
  · intro h
    cases h with
    | conj hm hv => exact ⟨_, hm, hv⟩
  · rintro ⟨e, hm, hv⟩
    exact VarInE.conj hm hv

theorem varInE_disj_iff {v : Nat} {es : List Expression} :
    VarInE v (.disj es) ↔ ∃ e ∈ es, VarInE v e := by
  constructor
  · intro h
    cases h with
    | disj hm hv => exact ⟨_, hm, hv⟩
  · rintro ⟨e, hm, hv⟩
    exact VarInE.disj hm hv

/-- Variable `v` occurs in some expression of the list. -/
def VarInL (v : Nat) (l : List Expression) : Prop := ∃ e ∈ l, VarInE v e

theorem flattenConjAux_vars {v : Nat} :
    ∀ fuel l out, flattenConjAux fuel l = some out → VarInL v out → VarInL v l := by
  intro fuel
  induction fuel with
  | zero => intro l out h; simp [flattenConjAux] at h
  | succ f ih =>
    intro l out h
    cases l with
    | nil =>
      simp [flattenConjAux] at h
      subst h
      intro hv
      exact hv
    | cons e todo =>
      cases e with
      | conj nested =>
        cases hl : nested.getLast? with
        | none => simp [flattenConjAux, hl] at h
        | some last =>
          simp only [flattenConjAux, hl, Option.map_eq_some'] at h
          obtain ⟨out', hout', rfl⟩ := h
          rintro ⟨e', he', hv⟩
          rcases List.mem_cons.mp he' with rfl | he'
          · exact ⟨.conj nested, List.mem_cons_self _ _,
              VarInE.conj ((mem_iff_of_getLast? hl e').mpr (Or.inr rfl)) hv⟩
          · obtain ⟨e2, he2, hv2⟩ := ih _ _ hout' ⟨e', he', hv⟩
            rcases List.mem_append.mp he2 with hm | hm
            · exact ⟨e2, List.mem_cons_of_mem _ hm, hv2⟩
            · exact ⟨.conj nested, List.mem_cons_self _ _,
                VarInE.conj (List.dropLast_subset _ hm) hv2⟩
      | disj nested =>
        simp only [flattenConjAux, Option.map_eq_some'] at h
        obtain ⟨out', hout', rfl⟩ := h
        rintro ⟨e', he', hv⟩
        rcases List.mem_cons.mp he' with rfl | he'
        · exact ⟨_, List.mem_cons_self _ _, hv⟩
        · obtain ⟨e2, he2, hv2⟩ := ih _ _ hout' ⟨e', he', hv⟩
          exact ⟨e2, List.mem_cons_of_mem _ he2, hv2⟩
      | lit l0 =>
        simp only [flattenConjAux, Option.map_eq_some'] at h
        obtain ⟨out', hout', rfl⟩ := h
        rintro ⟨e', he', hv⟩
        rcases List.mem_cons.mp he' with rfl | he'
        · exact ⟨_, List.mem_cons_self _ _, hv⟩
        · obtain ⟨e2, he2, hv2⟩ := ih _ _ hout' ⟨e', he', hv⟩
          exact ⟨e2, List.mem_cons_of_mem _ he2, hv2⟩

theorem flattenDisjAux_vars {v : Nat} :
    ∀ fuel l out, flattenDisjAux fuel l = some out → VarInL v out → VarInL v l := by
  intro fuel
  induction fuel with
  | zero => intro l out h; simp [flattenDisjAux] at h
  | succ f ih =>
    intro l out h
    cases l with
    | nil =>
      simp [flattenDisjAux] at h
      subst h
      intro hv
      exact hv
    | cons e todo =>
      cases e with
      | disj nested =>
        cases hl : nested.getLast? with
        | none => simp [flattenDisjAux, hl] at h
        | some last =>
          simp only [flattenDisjAux, hl, Option.map_eq_some'] at h
          obtain ⟨out', hout', rfl⟩ := h
          rintro ⟨e', he', hv⟩
          rcases List.mem_cons.mp he' with rfl | he'
          · exact ⟨.disj nested, List.mem_cons_self _ _,
              VarInE.disj ((mem_iff_of_getLast? hl e').mpr (Or.inr rfl)) hv⟩
          · obtain ⟨e2, he2, hv2⟩ := ih _ _ hout' ⟨e', he', hv⟩
            rcases List.mem_append.mp he2 with hm | hm
            · exact ⟨e2, List.mem_cons_of_mem _ hm, hv2⟩
            · exact ⟨.disj nested, List.mem_cons_self _ _,
                VarInE.disj (List.dropLast_subset _ hm) hv2⟩
      | conj nested =>
        simp only [flattenDisjAux, Option.map_eq_some'] at h
        obtain ⟨out', hout', rfl⟩ := h
        rintro ⟨e', he', hv⟩
        rcases List.mem_cons.mp he' with rfl | he'
        · exact ⟨_, List.mem_cons_self _ _, hv⟩
        · obtain ⟨e2, he2, hv2⟩ := ih _ _ hout' ⟨e', he', hv⟩
          exact ⟨e2, List.mem_cons_of_mem _ he2, hv2⟩
      | lit l0 =>
        simp only [flattenDisjAux, Option.map_eq_some'] at h
        obtain ⟨out', hout', rfl⟩ := h
        rintro ⟨e', he', hv⟩
        rcases List.mem_cons.mp he' with rfl | he'
        · exact ⟨_, List.mem_cons_self _ _, hv⟩
        · obtain ⟨e2, he2, hv2⟩ := ih _ _ hout' ⟨e', he', hv⟩
          exact ⟨e2, List.mem_cons_of_mem _ he2, hv2⟩

theorem distributeStep_vars {v : Nat} {out out2 : List Expression}
    (h : distributeStep out = some out2) : VarInL v out2 → VarInL v out := by
  unfold distributeStep at h
  split at h
  · simp only [Option.some.injEq] at h
    subst h
    exact id
  · rename_i fc hf
    split at h
    · rename_i hlen
      split at h
      · rename_i cargs rest hsw
        cases hrl : rest.getLast? with
        | none => simp only [hrl] at h; exact absurd h (by simp)
        | some other =>
          simp only [hrl, Option.some.injEq] at h
          subst h
          rintro ⟨e', he', hv⟩
          rcases List.mem_append.mp he' with hm | hm
          · exact ⟨e', (swapRemove_mem hsw e').mp
              (Or.inr (List.dropLast_subset _ hm)), hv⟩
          · have he2 : e' = Expression.conj
                (cargs.map (fun arg => .disj [other, arg])) :=
              List.mem_singleton.mp hm
            subst he2
            rcases varInE_conj_iff.mp hv with ⟨d, hd, hvd⟩
            obtain ⟨arg, harg, rfl⟩ := List.mem_map.mp hd
            rcases varInE_disj_iff.mp hvd with ⟨w, hw, hvw⟩
            rcases List.mem_cons.mp hw with rfl | hw
            · refine ⟨w, (swapRemove_mem hsw w).mp
                (Or.inr ((mem_iff_of_getLast? hrl w).mpr (Or.inr rfl))), hvw⟩
            · have hwa : w = arg := List.mem_singleton.mp hw
              subst hwa
              exact ⟨.conj cargs, (swapRemove_mem hsw _).mp (Or.inl rfl),
                VarInE.conj harg hvw⟩
      · exact absurd h (by simp)
    · simp only [Option.some.injEq] at h
      subst h
      exact id

theorem visitChildren_vars
    {rv : Expression → Option (Expression × VisitorStatus)}
    (hrv : ∀ e e' s, rv e = some (e', s) → ∀ v, VarInE v e' → VarInE v e) :
    ∀ {es rs}, visitChildren rv es = some rs →
      ∀ v, VarInL v (rs.map Prod.fst) → VarInL v es := by
  intro es
  induction es with
  | nil =>
    intro rs h
    simp [visitChildren] at h
    subst h
    intro v hv
    exact hv
  | cons e es ih =>
    intro rs h
    cases hre : rv e with
    | none => simp [visitChildren, hre] at h
    | some r =>
      cases hres : visitChildren rv es with
      | none => simp [visitChildren, hre, hres] at h
      | some rs' =>
        have hrs : rs = r :: rs' := by
          simp [visitChildren, hre, hres] at h
          exact h.symm
        subst hrs
        obtain ⟨e1, s1⟩ := r
        rintro v ⟨x, hx, hv⟩
        rcases List.mem_cons.mp hx with rfl | hx
        · exact ⟨e, List.mem_cons_self _ _, hrv e x s1 hre v hv⟩
        · obtain ⟨e2, he2, hv2⟩ := ih hres v ⟨x, hx, hv⟩
          exact ⟨e2, List.mem_cons_of_mem _ he2, hv2⟩

theorem rewriteVisitor_vars :
    ∀ fuel e e' s, rewriteVisitor fuel e = some (e', s) →
      ∀ v, VarInE v e' → VarInE v e := by
  intro fuel
  induction fuel with
  | zero => intro e e' s h; simp [rewriteVisitor] at h
  | succ f ih =>
    intro e e' s h
    cases e with
    | lit l =>
      simp [rewriteVisitor] at h
      obtain ⟨rfl, rfl⟩ := h
      intro v hv
      exact hv
    | conj es =>
      rw [rewriteVisitor] at h
      cases hvc : visitChildren (rewriteVisitor f) es with
      | none => simp only [hvc] at h; exact absurd h (by simp)
      | some rs =>
        simp only [hvc] at h
        have hsub := visitChildren_vars (fun e e' s hh => ih e e' s hh) hvc
        cases hcond : conjChildrenOk rs with
        | true =>
          simp only [hcond] at h
          simp only [Option.some.injEq, Prod.mk.injEq] at h
          obtain ⟨h1, h2⟩ := h
          subst h1; subst h2
          intro v hv
          exact varInE_conj_iff.mpr (hsub v (varInE_conj_iff.mp hv))
        | false =>
          simp only [hcond] at h
          cases hes2 : rs.map Prod.fst with
          | nil =>
            simp only [hes2] at h
            cases hfl : flattenConjAux (f + 1) [] with
            | none => simp only [hfl] at h; exact absurd h (by simp)
            | some flat =>
              simp only [hfl, Option.some.injEq, Prod.mk.injEq] at h
              obtain ⟨h1, h2⟩ := h
              subst h1; subst h2
              intro v hv
              have := flattenConjAux_vars _ _ _ hfl (varInE_conj_iff.mp hv)
              refine varInE_conj_iff.mpr (hsub v ?_)
              rw [hes2]
              exact this
          | cons x1 tl =>
            cases tl with
            | nil =>
              simp only [hes2, Option.some.injEq, Prod.mk.injEq] at h
              obtain ⟨h1, h2⟩ := h
              subst h1; subst h2
              intro v hv
              refine varInE_conj_iff.mpr (hsub v ?_)
              rw [hes2]
              exact ⟨_, List.mem_singleton_self _, hv⟩
            | cons x2 tl2 =>
              simp only [hes2] at h
              cases hfl : flattenConjAux (f + 1) (x1 :: x2 :: tl2) with
              | none => simp only [hfl] at h; exact absurd h (by simp)
              | some flat =>
                simp only [hfl, Option.some.injEq, Prod.mk.injEq] at h
                obtain ⟨h1, h2⟩ := h
                subst h1; subst h2
                intro v hv
                have := flattenConjAux_vars _ _ _ hfl (varInE_conj_iff.mp hv)
                refine varInE_conj_iff.mpr (hsub v ?_)
                rw [hes2]
                exact this
    | disj es =>
      rw [rewriteVisitor] at h
      cases hvc : visitChildren (rewriteVisitor f) es with
      | none => simp only [hvc] at h; exact absurd h (by simp)
      | some rs =>
        simp only [hvc] at h
        have hsub := visitChildren_vars (fun e e' s hh => ih e e' s hh) hvc
        cases hcond : disjChildrenOk rs with
        | true =>
          simp only [hcond] at h
          simp only [Option.some.injEq, Prod.mk.injEq] at h
          obtain ⟨h1, h2⟩ := h
          subst h1; subst h2
          intro v hv
          exact varInE_disj_iff.mpr (hsub v (varInE_disj_iff.mp hv))
        | false =>
          simp only [hcond] at h
          cases hes2 : rs.map Prod.fst with
          | nil =>
            simp only [hes2] at h
            cases hfl : flattenDisjAux (f + 1) [] with
            | none => simp only [hfl] at h; exact absurd h (by simp)
            | some flat =>
              simp only [hfl] at h
              cases hds : distributeStep flat with
              | none => simp only [hds] at h; exact absurd h (by simp)
              | some out =>
                simp only [hds, Option.some.injEq, Prod.mk.injEq] at h
                obtain ⟨h1, h2⟩ := h
                subst h1; subst h2
                intro v hv
                have hstep := distributeStep_vars hds (varInE_disj_iff.mp hv)
                have := flattenDisjAux_vars _ _ _ hfl hstep
                refine varInE_disj_iff.mpr (hsub v ?_)
                rw [hes2]
                exact this
          | cons x1 tl =>
            cases tl with
            | nil =>
              simp only [hes2, Option.some.injEq, Prod.mk.injEq] at h
              obtain ⟨h1, h2⟩ := h
              subst h1; subst h2
              intro v hv
              refine varInE_disj_iff.mpr (hsub v ?_)
              rw [hes2]
              exact ⟨_, List.mem_singleton_self _, hv⟩
            | cons x2 tl2 =>
              simp only [hes2] at h
              cases hfl : flattenDisjAux (f + 1) (x1 :: x2 :: tl2) with
              | none => simp only [hfl] at h; exact absurd h (by simp)
              | some flat =>
                simp only [hfl] at h
                cases hds : distributeStep flat with
                | none => simp only [hds] at h; exact absurd h (by simp)
                | some out =>
                  simp only [hds, Option.some.injEq, Prod.mk.injEq] at h
                  obtain ⟨h1, h2⟩ := h
                  subst h1; subst h2
                  intro v hv
                  have hstep := distributeStep_vars hds (varInE_disj_iff.mp hv)
                  have := flattenDisjAux_vars _ _ _ hfl hstep
                  refine varInE_disj_iff.mpr (hsub v ?_)
                  rw [hes2]
                  exact this

theorem toCnfLoop_vars :
    ∀ fuel e e', toCnfLoop fuel e = some e' → ∀ v, VarInE v e' → VarInE v e := by
  intro fuel
  induction fuel with
  | zero => intro e e' h; simp [toCnfLoop] at h
  | succ f ih =>
    intro e e' h
    rw [toCnfLoop] at h
    cases hrw : rewriteVisitor (f + 1) e with
    | none => simp only [hrw] at h; exact absurd h (by simp)
    | some r =>
      obtain ⟨e1, s⟩ := r
      simp only [hrw] at h
      have hr := rewriteVisitor_vars (f + 1) e e1 s hrw
      cases s with
      | cnf =>
        simp only [Option.some.injEq] at h
        subst h
        exact hr
      | cnfClause =>
        simp only [Option.some.injEq] at h
        subst h
        exact hr
      | literal =>
        simp only [Option.some.injEq] at h
        subst h
        exact hr
      | other =>
        intro v hv
        exact hr v (ih e1 e' h v hv)

theorem mapOption_mem {α β : Type} {f : α → Option β} :
    ∀ {xs : List α} {ys : List β}, mapOption f xs = some ys →
      ∀ y ∈ ys, ∃ x ∈ xs, f x = some y := by
  intro xs
  induction xs with
  | nil =>
    intro ys h
    simp [mapOption] at h
    subst h
    intro y hy
    simp at hy
  | cons x xs ih =>
    intro ys h
    rw [mapOption] at h
    cases hfx : f x with
    | none => simp only [hfx] at h; exact absurd h (by simp)
    | some y0 =>
      cases hrest : mapOption f xs with
      | none => simp only [hfx, hrest] at h; exact absurd h (by simp)
      | some ys0 =>
        simp only [hfx, hrest, Option.some.injEq] at h
        subst h
        intro y hy
        rcases List.mem_cons.mp hy with rfl | hy
        · exact ⟨x, List.mem_cons_self _ _, hfx⟩
        · obtain ⟨x2, hx2, hf2⟩ := ih hrest y hy
          exact ⟨x2, List.mem_cons_of_mem _ hx2, hf2⟩

theorem clauseOf_vars {e : Expression} {c : Clause} (h : clauseOf e = some c) :
    ∀ l ∈ c, VarInE l.var e := by
  cases e with
  | disj args =>
    rw [clauseOf] at h
    cases hm : mapOption litOf args with
    | none => simp only [hm] at h; exact absurd h (by simp)
    | some lits =>
      simp only [hm, Option.some.injEq] at h
      subst h
      intro l hl
      have hl' : l ∈ lits := (sortedDedup_mem l lits).mp hl
      obtain ⟨arg, harg, hlit⟩ := mapOption_mem hm l hl'
      cases arg with
      | lit l0 =>
        simp [litOf] at hlit
        subst hlit
        exact VarInE.disj harg (VarInE.lit _)
      | conj es => simp [litOf] at hlit
      | disj es => simp [litOf] at hlit
  | lit l0 =>
    simp only [clauseOf, Option.some.injEq] at h
    subst h
    intro l hl
    have : l = l0 := List.mem_singleton.mp hl
    subst this
    exact VarInE.lit l
  | conj es => simp [clauseOf] at h

theorem finalize_vars {e : Expression} {cs : List Clause} (h : finalize e = some cs) :
    ∀ c ∈ cs, ∀ l ∈ c, VarInE l.var e := by
  cases e with
  | conj es =>
    rw [finalize] at h
    intro c hc l hl
    obtain ⟨x, hx, hcx⟩ := mapOption_mem h c hc
    exact VarInE.conj hx (clauseOf_vars hcx l hl)
  | disj args =>
    simp only [finalize] at h
    cases hc0 : clauseOf (.disj args) with
    | none => simp only [hc0] at h; exact absurd h (by simp)
    | some c0 =>
      simp only [hc0, Option.some.injEq] at h
      subst h
      intro c hc l hl
      have : c = c0 := List.mem_singleton.mp hc
      subst this
      exact clauseOf_vars hc0 l hl
  | lit l0 =>
    simp only [finalize] at h
    cases hc0 : clauseOf (.lit l0) with
    | none => simp only [hc0] at h; exact absurd h (by simp)
    | some c0 =>
      simp only [hc0, Option.some.injEq] at h
      subst h
      intro c hc l hl
      have : c = c0 := List.mem_singleton.mp hc
      subst this
      exact clauseOf_vars hc0 l hl

/-- The clauses produced by `Expression::to_cnf` only mention variables that
already occur in the input expression. -/
theorem to_cnf_vars {fuel : Nat} {e : Expression} {cs : List Clause}
    (h : Expression.to_cnf fuel e = some cs) :
    ∀ c ∈ cs, ∀ l ∈ c, VarInE l.var e := by
  rw [Expression.to_cnf] at h
  cases hloop : toCnfLoop fuel e with
  | none => simp only [hloop] at h; exact absurd h (by simp)
  | some e1 =>
    simp only [hloop] at h
    intro c hc l hl
    exact toCnfLoop_vars fuel e e1 hloop l.var (finalize_vars h c hc l hl)

theorem mkSlots_ok {nodes matching : List Nat} {rv : Option (List Nat)} {rTx : Nat} :
    ∀ {ws : List KeyAccess} {g : Gnf} {slots : List (Option Nat)} {g' : Gnf},
      mkSlots nodes matching rv rTx ws g = (slots, g') → GnfOk g →
      GnfOk g' ∧ g.n_variables ≤ g'.n_variables ∧
        ∀ s ∈ slots, ∀ v, s = some v → 1 ≤ v ∧ v ≤ g'.n_variables := by
  intro ws
  induction ws with
  | nil =>
    intro g slots g' h hok
    simp only [mkSlots, Prod.mk.injEq] at h
    obtain ⟨h1, h2⟩ := h
    subst h1; subst h2
    exact ⟨hok, Nat.le_refl _, by intro s hs; simp at hs⟩
  | cons w ws ih =>
    intro g slots g' h hok
    cases hss : slotSkip matching rv w with
    | true =>
      cases hrec : mkSlots nodes matching rv rTx ws g with
      | mk rest g1 =>
        simp only [mkSlots, hss, hrec, Prod.mk.injEq] at h
        obtain ⟨h1, h2⟩ := h
        subst h1; subst h2
        obtain ⟨hok', hle, hb⟩ := ih hrec hok
        refine ⟨hok', hle, ?_⟩
        intro s hs v hv
        rcases List.mem_cons.mp hs with rfl | hs
        · exact absurd hv (by simp)
        · exact hb s hs v hv
    | false =>
      cases hrec : mkSlots nodes matching rv rTx ws
          (Gnf.add_edge { g with n_variables := g.n_variables + 1 }
            (nodes.getD rTx 0) (nodes.getD w.transaction_idx 0)
            (g.n_variables + 1)) with
      | mk rest g3 =>
        simp only [mkSlots, hss, Gnf.add_variable, hrec, Prod.mk.injEq] at h
        obtain ⟨h1, h2⟩ := h
        subst h1; subst h2
        have hok2 := gnfOk_alloc_edge hok (nodes.getD rTx 0) (nodes.getD w.transaction_idx 0)
        obtain ⟨hok', hle, hb⟩ := ih hrec hok2
        have hle2 : g.n_variables + 1 ≤ g3.n_variables := hle
        refine ⟨hok', by omega, ?_⟩
        intro s hs v hv
        rcases List.mem_cons.mp hs with rfl | hs
        · have : g.n_variables + 1 = v := by
            simpa using hv
          omega
        · exact hb s hs v hv

theorem mkConjArgs_ok {nodes : List Nat} {mtx rTx : Nat} :
    ∀ {ps : List (KeyAccess × Option Nat)} {g : Gnf} {es : List Expression} {g' : Gnf},
      mkConjArgs nodes mtx rTx ps g = some (es, g') → GnfOk g →
      (∀ p ∈ ps, ∀ v, p.2 = some v → 1 ≤ v ∧ v ≤ g.n_variables) →
      GnfOk g' ∧ g.n_variables ≤ g'.n_variables ∧
        ∀ e ∈ es, ∀ v, VarInE v e → 1 ≤ v ∧ v ≤ g'.n_variables := by
  intro ps
  induction ps with
  | nil =>
    intro g es g' h hok hb
    simp only [mkConjArgs, Option.some.injEq, Prod.mk.injEq] at h
    obtain ⟨h1, h2⟩ := h
    subst h1; subst h2
    exact ⟨hok, Nat.le_refl _, by intro e he; simp at he⟩
  | cons p ps ih =>
    obtain ⟨w, slot⟩ := p
    intro g es g' h hok hb
    by_cases htx : w.transaction_idx = mtx
    · simp only [mkConjArgs, if_pos htx] at h
      exact ih h hok fun q hq => hb q (List.mem_cons_of_mem _ hq)
    · simp only [mkConjArgs, if_neg htx] at h
      cases hslot : slot with
      | none => rw [hslot] at h; exact absurd h (by simp)
      | some sv =>
        rw [hslot] at h
        simp only [Gnf.add_variable] at h
        cases hrec : mkConjArgs nodes mtx rTx ps
            (Gnf.add_edge { g with n_variables := g.n_variables + 1 }
              (nodes.getD w.transaction_idx 0) (nodes.getD mtx 0)
              (g.n_variables + 1)) with
        | none => rw [hrec] at h; exact absurd h (by simp)
        | some r =>
          obtain ⟨es0, g3⟩ := r
          rw [hrec] at h
          simp only [Option.some.injEq, Prod.mk.injEq] at h
          obtain ⟨h1, h2⟩ := h
          subst h1; subst h2
          have hok2 := gnfOk_alloc_edge hok (nodes.getD w.transaction_idx 0) (nodes.getD mtx 0)
          have hsv := hb (w, slot) (List.mem_cons_self _ _) sv hslot
          obtain ⟨hok', hle, hbnd⟩ := ih hrec hok2 (by
            intro q hq v hv
            have := hb q (List.mem_cons_of_mem _ hq) v hv
            show 1 ≤ v ∧ v ≤ g.n_variables + 1
            omega)
          have hle2 : g.n_variables + 1 ≤ g3.n_variables := hle
          refine ⟨hok', by omega, ?_⟩
          intro e he v hv
          rcases List.mem_cons.mp he with rfl | he
          · rcases varInE_disj_iff.mp hv with ⟨d, hd, hvd⟩
            rcases List.mem_cons.mp hd with rfl | hd
            · have : v = g.n_variables + 1 := by
                simpa [Literal.var] using varInE_lit_iff.mp hvd
              omega
            · have hd' : d = Expression.lit (.pos sv) := List.mem_singleton.mp hd
              subst hd'
              have : v = sv := by
                simpa [Literal.var] using varInE_lit_iff.mp hvd
              omega
          · exact hbnd e he v hv

theorem mkDisjuncts_ok {nodes : List Nat} {writes : List KeyAccess}
    {slots : List (Option Nat)} {rTx : Nat} :
    ∀ {ms : List Nat} {g : Gnf} {ds : List Expression} {g' : Gnf},
      mkDisjuncts nodes writes slots rTx ms g = some (ds, g') → GnfOk g →
      (∀ s ∈ slots, ∀ v, s = some v → 1 ≤ v ∧ v ≤ g.n_variables) →
      GnfOk g' ∧ g.n_variables ≤ g'.n_variables ∧
        ∀ e ∈ ds, ∀ v, VarInE v e → 1 ≤ v ∧ v ≤ g'.n_variables := by
  intro ms
  induction ms with
  | nil =>
    intro g ds g' h hok hb
    simp only [mkDisjuncts, Option.some.injEq, Prod.mk.injEq] at h
    obtain ⟨h1, h2⟩ := h
    subst h1; subst h2
    exact ⟨hok, Nat.le_refl _, by intro e he; simp at he⟩
  | cons mtx ms ih =>
    intro g ds g' h hok hb
    simp only [mkDisjuncts, Gnf.add_variable] at h
    cases hca : mkConjArgs nodes mtx rTx (writes.zip slots)
        (Gnf.add_edge { g with n_variables := g.n_variables + 1 }
          (nodes.getD mtx 0) (nodes.getD rTx 0) (g.n_variables + 1)) with
    | none =>
      simp only [hca] at h
      exact Option.noConfusion h
    | some rca =>
      obtain ⟨cargs, g3⟩ := rca
      simp only [hca] at h
      cases hrec : mkDisjuncts nodes writes slots rTx ms g3 with
      | none =>
        simp only [hrec] at h
        exact Option.noConfusion h
      | some rrec =>
        obtain ⟨ds0, g4⟩ := rrec
        simp only [hrec] at h
        simp only [Option.some.injEq, Prod.mk.injEq] at h
        obtain ⟨h1, h2⟩ := h
        subst h1; subst h2
        have hok2 := gnfOk_alloc_edge hok (nodes.getD mtx 0) (nodes.getD rTx 0)
        obtain ⟨hok3, hle3, hbnd3⟩ := mkConjArgs_ok hca hok2 (by
          intro q hq v hv
          have hq2 : q.2 ∈ slots := (List.of_mem_zip hq).2
          have := hb q.2 hq2 v hv
          show 1 ≤ v ∧ v ≤ g.n_variables + 1
          omega)
        have hle3' : g.n_variables + 1 ≤ g3.n_variables := hle3
        obtain ⟨hok4, hle4, hbnd4⟩ := ih hrec hok3 (by
          intro s hs v hv
          have := hb s hs v hv
          omega)
        refine ⟨hok4, by omega, ?_⟩
        intro e he v hv
        rcases List.mem_cons.mp he with rfl | he
        · rcases varInE_conj_iff.mp hv with ⟨d, hd, hvd⟩
          rcases List.mem_cons.mp hd with rfl | hd
          · have : v = g.n_variables + 1 := by
              simpa [Literal.var] using varInE_lit_iff.mp hvd
            omega
          · have := hbnd3 d hd v hvd
            omega
        · exact hbnd4 e he v hv

theorem buildReadFormula_ok {nodes : List Nat} {writes : List KeyAccess} {r : KeyAccess}
    {g : Gnf} {expr : Expression} {g2 : Gnf}
    (h : buildReadFormula nodes writes r g = some (expr, g2)) (hok : GnfOk g) :
    GnfOk g2 ∧ g.n_variables ≤ g2.n_variables ∧
      ∀ v, VarInE v expr → 1 ≤ v ∧ v ≤ g2.n_variables := by
  unfold buildReadFormula at h
  cases hms : mkSlots nodes (matchingWrites writes r.value) r.value r.transaction_idx
      writes g with
  | mk slots g1 =>
    simp only [hms] at h
    obtain ⟨hok1, hle1, hb1⟩ := mkSlots_ok hms hok
    cases hmd : mkDisjuncts nodes writes slots r.transaction_idx
        (matchingWrites writes r.value) g1 with
    | none =>
      simp only [hmd] at h
      exact Option.noConfusion h
    | some rd =>
      obtain ⟨dArgs, gd⟩ := rd
      simp only [hmd] at h
      obtain ⟨hokd, hled, hbd⟩ := mkDisjuncts_ok hmd hok1 hb1
      split at h
      · cases hml : mapOption (fun s => s.map (fun v => Expression.lit (.pos v))) slots with
        | none =>
          simp only [hml] at h
          exact Option.noConfusion h
        | some lits =>
          simp only [hml, Option.some.injEq, Prod.mk.injEq] at h
          obtain ⟨h1, h2⟩ := h
          subst h1; subst h2
          refine ⟨hokd, by omega, ?_⟩
          intro v hv
          rcases varInE_disj_iff.mp hv with ⟨d, hd, hvd⟩
          rcases List.mem_append.mp hd with hd | hd
          · exact hbd d hd v hvd
          · have hd' : d = Expression.conj lits := List.mem_singleton.mp hd
            subst hd'
            rcases varInE_conj_iff.mp hvd with ⟨le, hle, hvle⟩
            obtain ⟨s, hs, hmap⟩ := mapOption_mem hml le hle
            rw [Option.map_eq_some'] at hmap
            obtain ⟨sv, hsv, hfe⟩ := hmap
            subst hfe
            have : v = sv := by
              simpa [Literal.var] using varInE_lit_iff.mp hvle
            subst this
            have := hb1 s hs v hsv
            omega
      · simp only [Option.some.injEq, Prod.mk.injEq] at h
        obtain ⟨h1, h2⟩ := h
        subst h1; subst h2
        refine ⟨hokd, by omega, ?_⟩
        intro v hv
        rcases varInE_disj_iff.mp hv with ⟨d, hd, hvd⟩
        exact hbd d hd v hvd

theorem multiWriteRead_ok {fuel : Nat} {nodes : List Nat} {writes : List KeyAccess}
    {r : KeyAccess} {g g' : Gnf} (h : multiWriteRead fuel nodes writes r g = .ok g')
    (hok : GnfOk g) : GnfOk g' := by
  unfold multiWriteRead at h
  split at h
  · exact CRes.noConfusion h
  · cases hbf : buildReadFormula nodes writes r g with
    | none =>
      simp only [hbf] at h
      exact CRes.noConfusion h
    | some rb =>
      obtain ⟨expr, g1⟩ := rb
      simp only [hbf] at h
      obtain ⟨hok1, _, hvb⟩ := buildReadFormula_ok hbf hok
      cases hcnf : Expression.to_cnf fuel expr with
      | none =>
        simp only [hcnf] at h
        exact CRes.noConfusion h
      | some cs =>
        simp only [hcnf, CRes.ok.injEq] at h
        subst h
        exact gnfOk_add_clauses hok1 (by
          intro c hc l hl
          exact hvb l.var (to_cnf_vars hcnf c hc l hl))

theorem multiWriteReads_ok {fuel : Nat} {nodes : List Nat} {writes : List KeyAccess} :
    ∀ {reads : List KeyAccess} {g g' : Gnf},
      multiWriteReads fuel nodes writes reads g = .ok g' → GnfOk g → GnfOk g' := by
  intro reads
  induction reads with
  | nil =>
    intro g g' h hok
    simp only [multiWriteReads, CRes.ok.injEq] at h
    subst h
    exact hok
  | cons r rest ih =>
    intro g g' h hok
    rw [multiWriteReads] at h
    cases hone : multiWriteRead fuel nodes writes r g with
    | ok g1 =>
      simp only [hone] at h
      exact ih h (multiWriteRead_ok hone hok)
    | fail =>
      simp only [hone] at h
      exact CRes.noConfusion h
    | panic =>
      simp only [hone] at h
      exact CRes.noConfusion h

theorem perKeyStep_ok {fuel : Nat} {txs : List Tx} {nodes : List Nat} {g g' : Gnf}
    {k : List Nat} (h : perKeyStep fuel txs nodes g k = .ok g') (hok : GnfOk g) :
    GnfOk g' := by
  unfold perKeyStep at h
  cases hca : collectAccesses txs k with
  | none =>
    simp only [hca] at h
    exact CRes.noConfusion h
  | some wr =>
    obtain ⟨writes, reads⟩ := wr
    cases writes with
    | nil =>
      cases reads with
      | nil =>
        simp only [hca] at h
        exact CRes.noConfusion h
      | cons r0 rtl =>
        simp only [hca] at h
        split at h
        · cases h
          exact hok
        · exact CRes.noConfusion h
    | cons w0 wtl =>
      cases reads with
      | nil =>
        simp only [hca] at h
        cases h
        exact hok
      | cons r0 rtl =>
        cases wtl with
        | nil =>
          simp only [hca] at h
          exact gnfOk_oneWriteReads hok h
        | cons w1 wtl2 =>
          simp only [hca] at h
          exact multiWriteReads_ok h hok

theorem perKeys_ok {fuel : Nat} {txs : List Tx} {nodes : List Nat} :
    ∀ {ks : List (List Nat)} {g g' : Gnf},
      perKeys fuel txs nodes ks g = .ok g' → GnfOk g → GnfOk g' := by
  intro ks
  induction ks with
  | nil =>
    intro g g' h hok
    simp only [perKeys, CRes.ok.injEq] at h
    subst h
    exact hok
  | cons k ks ih =>
    intro g g' h hok
    rw [perKeys] at h
    cases hone : perKeyStep fuel txs nodes g k with
    | ok g1 =>
      simp only [hone] at h
      exact ih h (perKeyStep_ok hone hok)
    | fail =>
      simp only [hone] at h
      exact CRes.noConfusion h
    | panic =>
      simp only [hone] at h
      exact CRes.noConfusion h

theorem gnfOk_init : GnfOk (Gnf.new.add_clause [Literal.pos Gnf.new.acyclic_variable]) := by
  refine ⟨by simp [Gnf.new, Gnf.add_clause], ?_, ?_, ?_⟩
  · intro e he
    simp [Gnf.new, Gnf.add_clause] at he
  · intro grp hgrp c hc l hl
    simp [Gnf.new, Gnf.add_clause, Gnf.acyclic_variable] at hgrp
    subst hgrp
    simp at hc
    subst hc
    simp at hl
    subst hl
    simp [Literal.var, Gnf.new, Gnf.add_clause]
  · intro v h2 hle
    have : (Gnf.new.add_clause [Literal.pos Gnf.new.acyclic_variable]).n_variables = 1 := rfl
    omega

/-- The GNF returned by a successful `check_history` satisfies the
construction invariant. -/
theorem check_history_ok {fuel : Nat} {txs : List Tx} {g : Gnf}
    (h : check_history fuel txs = .ok g) : GnfOk g := by
  simp only [check_history, addNodes_spec] at h
  exact perKeys_ok h (gnfOk_addRealtime gnfOk_init)

theorem countClauseLines_to_dimacs (g : Gnf) :
    countClauseLines g.to_dimacs = (g.meta_clauses.map List.length).sum := by
  unfold countClauseLines Gnf.to_dimacs
  simp only [List.filter_append, List.length_append]
  have h1 : List.filter isClauseLine
      [DimacsLine.header g.n_variables (g.meta_clauses.map List.length).sum] = [] := by
    simp [isClauseLine]
  have h2 : (List.filter isClauseLine
      (g.meta_clauses.flatMap fun grp =>
        DimacsLine.comment :: grp.map DimacsLine.clauseLine)).length
      = (g.meta_clauses.map List.length).sum := by
    induction g.meta_clauses with
    | nil => simp
    | cons grp grps ih =>
      simp only [List.flatMap_cons, List.filter_append, List.length_append, ih,
        List.map_cons, List.sum_cons]
      have hfc : List.filter isClauseLine
          (DimacsLine.comment :: grp.map DimacsLine.clauseLine)
          = grp.map DimacsLine.clauseLine := by
        rw [List.filter_cons_of_neg (by simp [isClauseLine])]
        apply List.filter_eq_self.mpr
        intro a ha
        obtain ⟨c, hc, rfl⟩ := List.mem_map.mp ha
        simp [isClauseLine]
      rw [hfc, List.length_map]
  have h3 : List.filter isClauseLine
      [DimacsLine.digraphLine g.n_nodes g.edges.length] = [] := by
    simp [isClauseLine]
  have h4 : List.filter isClauseLine
      (g.edges.flatMap fun e =>
        [DimacsLine.comment, DimacsLine.edgeLine e.src e.dst e.var]) = [] := by
    apply List.filter_eq_nil_iff.mpr
    intro a ha
    obtain ⟨e, he, hm⟩ := List.mem_flatMap.mp ha
    rcases List.mem_cons.mp hm with rfl | hm
    · simp [isClauseLine]
    · have : a = DimacsLine.edgeLine e.src e.dst e.var := List.mem_singleton.mp hm
      subst this
      simp [isClauseLine]
  have h5 : List.filter isClauseLine
      [DimacsLine.acyclicLine (Gnf.acyclic_variable g)] = [] := by
    simp [isClauseLine]
  rw [h1, h2, h3, h4, h5]
  simp

theorem foldl_max_acc_le (L : List Nat) : ∀ a, a ≤ L.foldl max a := by
  induction L with
  | nil => intro a; simp
  | cons y ys ih =>
    intro a
    simp only [List.foldl_cons]
    exact Nat.le_trans (Nat.le_max_left a y) (ih (max a y))

theorem le_foldl_max {L : List Nat} {x : Nat} (hx : x ∈ L) :
    ∀ a, x ≤ L.foldl max a := by
  induction L with
  | nil => simp at hx
  | cons y ys ih =>
    intro a
    rcases List.mem_cons.mp hx with rfl | hx
    · simp only [List.foldl_cons]
      exact Nat.le_trans (Nat.le_max_right a x) (foldl_max_acc_le ys (max a x))
    · simp only [List.foldl_cons]
      exact ih hx (max a y)

theorem foldl_max_le {L : List Nat} {n : Nat} :
    ∀ {a : Nat}, a ≤ n → (∀ x ∈ L, x ≤ n) → L.foldl max a ≤ n := by
  induction L with
  | nil => intro a ha _; simpa using ha
  | cons y ys ih =>
    intro a ha hb
    simp only [List.foldl_cons]
    exact ih (Nat.max_le.mpr ⟨ha, hb y (List.mem_cons_self _ _)⟩)
      fun x hx => hb x (List.mem_cons_of_mem _ hx)

theorem foldl_max_eq {L : List Nat} {n : Nat} (hub : ∀ x ∈ L, x ≤ n) (hmem : n ∈ L) :
    L.foldl max 0 = n :=
  Nat.le_antisymm (foldl_max_le (Nat.zero_le n) hub) (le_foldl_max hmem 0)

theorem lineVars_bound {g : Gnf} (hok : GnfOk g) :
    ∀ x ∈ g.to_dimacs.flatMap lineVars, x ≤ g.n_variables := by
  obtain ⟨h1, h2, h3, _⟩ := hok
  intro x hx
  obtain ⟨ln, hln, hxl⟩ := List.mem_flatMap.mp hx
  simp only [Gnf.to_dimacs, List.append_assoc, List.mem_append,
    List.mem_flatMap, List.mem_cons, List.not_mem_nil, or_false] at hln
  rcases hln with rfl | ⟨grp, hgrp, rfl | hcl⟩ | rfl | ⟨e, he, rfl | rfl⟩ | rfl
  · simp [lineVars] at hxl
  · simp [lineVars] at hxl
  · obtain ⟨c, hc, rfl⟩ := List.mem_map.mp hcl
    simp only [lineVars] at hxl
    obtain ⟨l, hl, rfl⟩ := List.mem_map.mp hxl
    exact (h3 grp hgrp c hc l hl).2
  · simp [lineVars] at hxl
  · simp [lineVars] at hxl
  · simp only [lineVars, List.mem_singleton] at hxl
    subst hxl
    exact (h2 e he).2
  · simp only [Gnf.acyclic_variable, lineVars, List.mem_singleton] at hxl
    subst hxl
    exact h1

theorem nvariables_mem_lineVars {g : Gnf} (hok : GnfOk g) :
    g.n_variables ∈ g.to_dimacs.flatMap lineVars := by
  obtain ⟨h1, _, _, h4⟩ := hok
  by_cases hone : g.n_variables = 1
  · apply List.mem_flatMap.mpr
    refine ⟨DimacsLine.acyclicLine (Gnf.acyclic_variable g), ?_, ?_⟩
    · simp [Gnf.to_dimacs]
    · simp [lineVars, Gnf.acyclic_variable, hone]
  · rcases h4 g.n_variables (by omega) (Nat.le_refl _) with
      ⟨e, he, hev⟩ | ⟨grp, hgrp, c, hc, l, hl, hlv⟩
    · apply List.mem_flatMap.mpr
      refine ⟨DimacsLine.edgeLine e.src e.dst e.var, ?_, ?_⟩
      · simp only [Gnf.to_dimacs, List.append_assoc, List.mem_append]
        refine Or.inr (Or.inr (Or.inr (Or.inl ?_)))
        exact List.mem_flatMap.mpr ⟨e, he, by simp⟩
      · simp [lineVars, hev]
    · apply List.mem_flatMap.mpr
      refine ⟨DimacsLine.clauseLine c, ?_, ?_⟩
      · simp only [Gnf.to_dimacs, List.append_assoc, List.mem_append]
        refine Or.inr (Or.inl ?_)
        exact List.mem_flatMap.mpr ⟨grp, hgrp, by
          simp only [List.mem_cons]
          exact Or.inr (List.mem_map_of_mem _ hc)⟩
      · simp only [lineVars]
        rw [← hlv]
        exact List.mem_map_of_mem _ hl

/-- For a well-formed GNF, the maximum variable index referenced in the
DIMACS document is exactly the declared variable counter. -/
theorem maxVarReferenced_eq {g : Gnf} (hok : GnfOk g) :
    maxVarReferenced g.to_dimacs = g.n_variables :=
  foldl_max_eq (lineVars_bound hok) (nvariables_mem_lineVars hok)

/-- C8. For every GNF built by a successful run of `check_history`, the
`p cnf` header emitted by `Gnf::to_dimacs` declares a variable count equal
to the maximum variable index referenced anywhere in the document (clause
lines, edge lines, or the acyclic line) and a clause count equal to the
number of emitted clause lines. -/
theorem check_history_dimacs_header {fuel : Nat} {txs : List Tx} {g : Gnf}
    (h : check_history fuel txs = CRes.ok g) :
    g.to_dimacs.head? = some (DimacsLine.header (maxVarReferenced g.to_dimacs)
      (countClauseLines g.to_dimacs)) := by
  have hok := check_history_ok h
  have hhead : g.to_dimacs.head? = some (DimacsLine.header g.n_variables
      (g.meta_clauses.map List.length).sum) := by
    simp [Gnf.to_dimacs]
  rw [hhead, maxVarReferenced_eq hok, countClauseLines_to_dimacs]

/-- A concrete three-transaction history: two completed inserts to the same
key and one completed read observing the second insert's value. -/
def txsW : List Tx :=
  [(⟨[.insert [0] [1]]⟩, .completed 0 1 []),
   (⟨[.insert [0] [2]]⟩, .completed 2 3 []),
   (⟨[.get [0]]⟩, .completed 4 5 [some [2]])]

/-- The GNF `check_history` builds from that history. -/
def gW : Gnf :=
  match check_history 20 txsW with
  | .ok g => g
  | _ => Gnf.new

theorem check_history_dimacs_header_witness :
    check_history 20 txsW = CRes.ok gW ∧
      gW.to_dimacs.head? = some (DimacsLine.header (maxVarReferenced gW.to_dimacs)
        (countClauseLines gW.to_dimacs)) := by
  have h : check_history 20 txsW = CRes.ok gW := rfl
  exact ⟨h, check_history_dimacs_header h⟩
